import Mathlib

/-!
Verification of the PLY point-cloud converter in `src/convert.py`.

The Python module is shallowly embedded as follows.

* A file on disk is a `List Nat` where `Byte := Nat` (real bytes are `< 256`;
  hypotheses state this bound where a theorem needs it).
* A Python `str` is a `PyStr := List Char`; the source only ever decodes ASCII.
* Python `int` is `Int`.
* A `numpy.float32` cell is modelled by its IEEE-754 binary32 bit pattern,
  a `Nat` below `2 ^ 32` (`F32`).  Conversions between `float32`, Python
  `float` (binary64) and integers are modelled as the corresponding pure
  bit-pattern maps with round-to-nearest-even; the quietening of signalling
  NaN payloads performed by real hardware during conversions is not modelled
  (NaN payloads are carried verbatim), which is the only abstraction from
  IEEE semantics in this file.
* `dict` is an association list in key-insertion order; updating an existing
  key keeps its position, inserting a fresh key appends (`dictSet`).
* A fallible Python function becomes `Except PlyError` (or, for the writer,
  a `WriteResult` that also records the bytes emitted before a failure).
-/

/-- A byte of a file is a plain `Nat` below 256 (stated as a hypothesis where
needed).  Code positions use `Nat` directly so that `omega` sees the atoms. -/
abbrev Byte := Nat

/-- Model of a Python string (the source only handles ASCII data). -/
abbrev PyStr := List Char

/-- Model of an IEEE-754 binary32 bit pattern (a `numpy.float32` cell). -/
abbrev F32 := Nat

/-- Whitespace characters of Python `str.split` / `str.strip` (ASCII range):
`\t \n \v \f \r` (0x09–0x0D), the separator controls 0x1C–0x1F, and space. -/
def isPySpace (c : Char) : Bool :=
  c = ' ' || c = '\t' || c = '\n' || c = '\r' || c = Char.ofNat 11
    || c = Char.ofNat 12 || c = Char.ofNat 28 || c = Char.ofNat 29
    || c = Char.ofNat 30 || c = Char.ofNat 31

/-- Python `bytes.decode("ascii", errors="strict")`: fails on any byte `≥ 128`. -/
def decodeAscii (bs : List Nat) : Option PyStr :=
  if bs.all (fun b => b < 128) then some (bs.map Char.ofNat) else none

/-- Python `str.encode("ascii")`: fails on any character above 127. -/
def asciiEncode (s : PyStr) : Option (List Nat) :=
  if s.all (fun c => c.toNat < 128) then some (s.map Char.toNat) else none

/-- Python `str.rstrip("\r\n")`: drop trailing carriage returns and newlines. -/
def rstripCRLF (s : PyStr) : PyStr :=
  (s.reverse.dropWhile (fun c => c = '\r' || c = '\n')).reverse

/-- Python `str.strip()`: drop leading and trailing whitespace. -/
def pyStrip (s : PyStr) : PyStr :=
  ((s.dropWhile isPySpace).reverse.dropWhile isPySpace).reverse

/-- Worker for `pySplit`; `cur` is the current token, reversed. -/
def pySplitAux : PyStr → PyStr → List PyStr
  | [], cur => if cur.isEmpty then [] else [cur.reverse]
  | c :: rest, cur =>
    if isPySpace c then
      if cur.isEmpty then pySplitAux rest []
      else cur.reverse :: pySplitAux rest []
    else pySplitAux rest (c :: cur)

/-- Python `str.split()` with no argument: split on whitespace runs,
dropping empty tokens. -/
def pySplit (s : PyStr) : List PyStr := pySplitAux s []

/-- Decimal digits, most significant first; structural recursion on a fuel
bound (any `fuel > n` is exact) so that the kernel can evaluate it. -/
def natDigitsF : Nat → Nat → PyStr
  | 0, _ => []
  | fuel + 1, n =>
    if n < 10 then [Char.ofNat (48 + n)]
    else natDigitsF fuel (n / 10) ++ [Char.ofNat (48 + n % 10)]

/-- Decimal digits of `n`, most significant first. -/
def natDigits (n : Nat) : PyStr := natDigitsF (n + 1) n

/-- Python `str(i)` for an `int`. -/
def intToStr (i : Int) : PyStr :=
  if i < 0 then '-' :: natDigits (-i).toNat else natDigits i.toNat

/-- Value of a decimal digit character. -/
def digitVal (c : Char) : Nat := c.toNat - 48

/-- Is `c` an ASCII decimal digit. -/
def isDigitCh (c : Char) : Bool := 48 ≤ c.toNat && c.toNat ≤ 57

/-- Accumulating decimal reader. -/
def digitsToNat (acc : Nat) : PyStr → Nat
  | [] => acc
  | c :: rest => digitsToNat (acc * 10 + digitVal c) rest

/-- Python `int(s)`: surrounding whitespace stripped, an optional sign,
then a nonempty digit string; anything else raises `ValueError`.
(The underscore digit separators Python also accepts are not modelled;
no source path or claim produces them.) -/
def pyInt (s : PyStr) : Option Int :=
  match pyStrip s with
  | [] => none
  | c :: ds =>
    if c = '-' then
      if ds ≠ [] && ds.all isDigitCh then some (-(digitsToNat 0 ds : Int)) else none
    else if c = '+' then
      if ds ≠ [] && ds.all isDigitCh then some (digitsToNat 0 ds) else none
    else
      if (c :: ds).all isDigitCh then some (digitsToNat 0 (c :: ds)) else none

/-- Python binary-file `readline` on nonempty input `b :: rest`: the first
result component is the line including its terminating newline byte (or the
whole remaining input if no newline occurs); the invariant bounds the length
of the unread remainder for termination of the header-parsing loop. -/
def splitNLCons (b : Nat) (rest : List Nat) : List Nat × List Nat :=
  if b = 10 then ([10], rest)
  else
    match rest with
    | [] => ([b], [])
    | c :: rs =>
      let p := splitNLCons c rs
      (b :: p.1, p.2)

/-- Little-endian value of a byte list (positional base-256 value). -/
def leNat : List Nat → Nat
  | [] => 0
  | b :: rest => b + 256 * leNat rest

/-- The `w` little-endian bytes of `v` (binary serialisation of `v % 256^w`). -/
def leBytes : Nat → Nat → List Nat
  | 0, _ => []
  | w + 1, v => v % 256 :: leBytes w (v / 256)

/-- Byte order of a binary PLY body, selected by the format name
(`<` or `>` prefix of the `struct` format string). -/
inductive Endian where
  | little
  | big
  deriving Repr, DecidableEq

/-- Natural value of `bs` under endianness `e`. -/
def orientNat (e : Endian) (bs : List Nat) : Nat :=
  match e with
  | .little => leNat bs
  | .big => leNat bs.reverse

/-- The `w` bytes of `v` under endianness `e`. -/
def orientBytes (e : Endian) (w : Nat) (v : Nat) : List Nat :=
  match e with
  | .little => leBytes w v
  | .big => (leBytes w v).reverse

/-- The eight `struct` format characters the registry
`_PLY_TYPE_TO_STRUCT` maps onto: signed and unsigned 8/16/32-bit integers,
binary32 and binary64 floats. -/
inductive SChar where
  | sb
  | uB
  | sh
  | uH
  | si
  | uI
  | fF
  | dD
  deriving Repr, DecidableEq

/-- Byte width of one scalar (standard `struct` sizes under `<` and `>`). -/
def width : SChar → Nat
  | .sb => 1
  | .uB => 1
  | .sh => 2
  | .uH => 2
  | .si => 4
  | .uI => 4
  | .fF => 4
  | .dD => 8

/-- Is the format character a signed integer one. -/
def isSignedInt : SChar → Bool
  | .sb => true
  | .sh => true
  | .si => true
  | _ => false

/-- Is the format character an integer one (as opposed to `f` or `d`). -/
def isIntChar : SChar → Bool
  | .fF => false
  | .dD => false
  | _ => true

/-- The registry `_PLY_TYPE_TO_STRUCT`: dictionary from PLY scalar type name
(canonical and alias spellings) to `struct` format character; `none` models
the `KeyError` for names outside the table. -/
def _PLY_TYPE_TO_STRUCT (t : PyStr) : Option SChar :=
  if t = "char".toList then some .sb
  else if t = "int8".toList then some .sb
  else if t = "uchar".toList then some .uB
  else if t = "uint8".toList then some .uB
  else if t = "short".toList then some .sh
  else if t = "int16".toList then some .sh
  else if t = "ushort".toList then some .uH
  else if t = "uint16".toList then some .uH
  else if t = "int".toList then some .si
  else if t = "int32".toList then some .si
  else if t = "uint".toList then some .uI
  else if t = "uint32".toList then some .uI
  else if t = "float".toList then some .fF
  else if t = "float32".toList then some .fF
  else if t = "double".toList then some .dD
  else if t = "float64".toList then some .dD
  else none

/-- Two-complement reading of an unsigned value `u < 256^w`. -/
def toSigned (w : Nat) (u : Nat) : Int :=
  if u < 256 ^ w / 2 then (u : Int) else (u : Int) - (256 ^ w : Nat)

/-- Python value of one scalar decoded by `struct.unpack`: for integer
characters the (signed or unsigned) integer; for `f` and `d` the float,
represented by its IEEE bit pattern (see the module comment). -/
def decodeScalar (c : SChar) (e : Endian) (bs : List Nat) : Int :=
  let u := orientNat e bs
  if isSignedInt c then toSigned (width c) u else (u : Int)

/-- Bytes of one scalar produced by `struct.pack` from an in-range value;
`none` models the `struct.error` raised for an out-of-range integer. -/
def encodeScalar (c : SChar) (e : Endian) (v : Int) : Option (List Nat) :=
  if isSignedInt c then
    if -((256 ^ width c / 2 : Nat) : Int) ≤ v ∧ v < ((256 ^ width c / 2 : Nat) : Int) then
      some (orientBytes e (width c) (v % ((256 ^ width c : Nat) : Int)).toNat)
    else none
  else
    if 0 ≤ v ∧ v < ((256 ^ width c : Nat) : Int) then
      some (orientBytes e (width c) v.toNat)
    else none

/-- Floor base-2 logarithm by structural recursion on a fuel bound (any
`fuel ≥ n` is exact); kernel-evaluable, equal to `Nat.log2`. -/
def plog2F : Nat → Nat → Nat
  | 0, _ => 0
  | fuel + 1, n => if 2 ≤ n then plog2F fuel (n / 2) + 1 else 0

/-- Floor base-2 logarithm (`plog2 0 = plog2 1 = 0`). -/
def plog2 (n : Nat) : Nat := plog2F n n

/-- Round-to-nearest-even of `a / b` for `b` a power of two (`b ≥ 1`). -/
def rne (a b : Nat) : Nat :=
  let q := a / b
  let r := a % b
  if 2 * r > b || (2 * r == b && q % 2 == 1) then q + 1 else q

/-- IEEE binary32 bit pattern of a natural number under round-to-nearest-even
(arguments stay below `2 ^ 32`, so no overflow branch is needed). -/
def natToF32bits (n : Nat) : Nat :=
  if n = 0 then 0
  else
    let L := plog2 n
    if L ≤ 23 then (L + 127) * 2 ^ 23 + (n - 2 ^ L) * 2 ^ (23 - L)
    else
      let q := rne n (2 ^ (L - 23))
      if q = 2 ^ 24 then (L + 128) * 2 ^ 23
      else (L + 127) * 2 ^ 23 + (q - 2 ^ 23)

/-- IEEE binary32 bit pattern of a Python integer converted through
`float` and stored into a `float32` array cell. -/
def intToF32bits (v : Int) : Nat :=
  if v < 0 then 2 ^ 31 + natToF32bits (-v).toNat else natToF32bits v.toNat

/-- Exact widening of a binary32 bit pattern to the binary64 bit pattern of
the same value (`struct.pack` of a `float32` with format `d`, or reading a
`float32` as a Python float). -/
def widenF32toF64 (p : Nat) : Nat :=
  let s := p / 2 ^ 31 % 2
  let e := p / 2 ^ 23 % 256
  let m := p % 2 ^ 23
  if e = 255 then s * 2 ^ 63 + 2047 * 2 ^ 52 + m * 2 ^ 29
  else if e = 0 then
    if m = 0 then s * 2 ^ 63
    else
      let L := plog2 m
      s * 2 ^ 63 + (L + 874) * 2 ^ 52 + (m - 2 ^ L) * 2 ^ (52 - L)
  else s * 2 ^ 63 + (e + 896) * 2 ^ 52 + m * 2 ^ 29

/-- Narrowing of a binary64 bit pattern to binary32 under
round-to-nearest-even (storing a Python float into a `float32` array cell).
An infinity stays an infinity and a NaN stays a NaN: its payload is
truncated to the top 23 bits, and when truncation would clear the whole
mantissa field the quiet bit is set instead (the class is preserved; the
quiet-bit treatment of remaining payloads follows the module's declared
abstraction). -/
def narrowF64toF32 (P : Nat) : Nat :=
  let s := P / 2 ^ 63 % 2
  let E := P / 2 ^ 52 % 2048
  let M := P % 2 ^ 52
  if E = 2047 then
    s * 2 ^ 31 + 255 * 2 ^ 23 +
      (if M = 0 then 0 else if M / 2 ^ 29 = 0 then 2 ^ 22 else M / 2 ^ 29)
  else if 1151 ≤ E then s * 2 ^ 31 + 255 * 2 ^ 23
  else if 897 ≤ E then
    let q := rne (2 ^ 52 + M) (2 ^ 29)
    if q = 2 ^ 24 then
      if E = 1150 then s * 2 ^ 31 + 255 * 2 ^ 23
      else s * 2 ^ 31 + (E - 895) * 2 ^ 23
    else s * 2 ^ 31 + (E - 896) * 2 ^ 23 + (q - 2 ^ 23)
  else
    let S := if E = 0 then M else 2 ^ 52 + M
    let sh := 926 - max E 1
    s * 2 ^ 31 + rne S (2 ^ sh)

/-- A value produced by `struct.unpack`: a Python int, or a Python float that
came from a binary32 or binary64 slice (kept apart because the two enter a
`float32` array cell differently). -/
inductive PyVal where
  | int (v : Int)
  | flt (p : Nat)
  | dbl (p : Nat)
  deriving Repr, DecidableEq

/-- Unpack one scalar slice into a Python value. -/
def unpackOne (c : SChar) (e : Endian) (bs : List Nat) : PyVal :=
  match c with
  | .fF => .flt (orientNat e bs)
  | .dD => .dbl (orientNat e bs)
  | _ => .int (decodeScalar c e bs)

/-- Store `float(v)` into a `float32` array cell: the widening policy of
`read_vertex_table_binary` (`arrays[p_name][i] = float(v)`). -/
def pyFloatToF32 : PyVal → F32
  | .int v => intToF32bits v
  | .flt p => p
  | .dbl p => narrowF64toF32 p

/-- The error kinds raised by `convert.py` (each constructor names the
Python exception site; payloads keep the data interpolated into the
message). -/
inductive PlyError where
  | eofHeader
  | decodeError
  | notPly
  | invalidFormatLine
  | invalidElementLine
  | intParseError
  | listProperty
  | invalidPropertyLine
  | noVertexElement
  | unsupportedScalarType (t : PyStr)
  | unsupportedFormat (f : PyStr)
  | eofVertexData (i : Nat) (count : Int)
  | negativeDimension
  | missingColumn (name : PyStr)
  | rowCountMismatch (name : PyStr)
  | asciiEncodeError
  | packNotInteger
  deriving Repr, DecidableEq

/-- The `PlyHeader` dataclass of `convert.py`. -/
structure PlyHeader where
  format : PyStr
  version : PyStr
  vertex_count : Int
  vertex_properties : List (PyStr × PyStr)
  header_lines : List PyStr
  data_start_offset : Nat
  deriving Repr, DecidableEq

/-- State threaded through the header-parsing loop of `parse_ply_header`. -/
structure ParseLoopOut where
  vcount : Option Int
  props : List (PyStr × PyStr)
  lines : List PyStr
  rest : List Nat
  deriving Repr, DecidableEq

/-- The declaration loop of `parse_ply_header` (phase 3): reads lines until
`end_header`, tracking whether the current element is `vertex` (`inv`) and
accumulating the vertex properties; returns the unread bytes so the caller
can compute `data_start_offset`. -/
def parseLoop : Nat → List Nat → Option Int → List (PyStr × PyStr) → Bool →
    List PyStr → Except PlyError ParseLoopOut
  | 0, _, _, _, _, _ => .error .eofHeader
  | _ + 1, [], _, _, _, _ => .error .eofHeader
  | fuel + 1, b :: rest, v, props, inv, lines =>
    let lb := (splitNLCons b rest).1
    let r := (splitNLCons b rest).2
    match decodeAscii lb with
    | none => .error .decodeError
    | some raw =>
      let line := rstripCRLF raw
      let lines1 := lines ++ [line]
      let stripped := pyStrip line
      if stripped = "end_header".toList then .ok ⟨v, props, lines1, r⟩
      else
        match pySplit stripped with
        | [] => parseLoop fuel r v props inv lines1
        | p0 :: ps =>
          if p0 = "element".toList then
            match ps with
            | [en, cs] =>
              match pyInt cs with
              | none => .error .intParseError
              | some cnt =>
                if en = "vertex".toList then parseLoop fuel r (some cnt) props true lines1
                else parseLoop fuel r v props false lines1
            | _ => .error .invalidElementLine
          else if p0 = "property".toList then
            if inv then
              match ps with
              | [pt, pn] => parseLoop fuel r v (props ++ [(pt, pn)]) inv lines1
              | p1 :: _ :: _ :: _ :: _ =>
                if p1 = "list".toList then .error .listProperty
                else .error .invalidPropertyLine
              | _ => .error .invalidPropertyLine
            else parseLoop fuel r v props inv lines1
          else parseLoop fuel r v props inv lines1

/-- `parse_ply_header`: magic line, format line, then the declaration loop;
the byte offset after the `end_header` line becomes `data_start_offset`. -/
def parse_ply_header (file : List Nat) : Except PlyError PlyHeader :=
  match file with
  | [] => .error .eofHeader
  | b :: rest =>
    let s1 := splitNLCons b rest
    match decodeAscii s1.1 with
    | none => .error .decodeError
    | some raw1 =>
      let line1 := rstripCRLF raw1
      if pyStrip line1 ≠ "ply".toList then .error .notPly
      else
        match s1.2 with
        | [] => .error .eofHeader
        | b2 :: rest2 =>
          let s2 := splitNLCons b2 rest2
          match decodeAscii s2.1 with
          | none => .error .decodeError
          | some raw2 =>
            match pySplit (pyStrip raw2) with
            | [f0, fmt, ver] =>
              if f0 ≠ "format".toList then .error .invalidFormatLine
              else
                match parseLoop (s2.2.length + 1) s2.2 none [] false
                    [line1, rstripCRLF raw2] with
                | .error e => .error e
                | .ok out =>
                  match out.vcount with
                  | none => .error .noVertexElement
                  | some n =>
                    .ok ⟨fmt, ver, n, out.props, out.lines,
                      file.length - out.rest.length⟩
            | _ => .error .invalidFormatLine

/-- `_struct_for_vertex` without the endian prefix: look every property type
up in the registry; a `KeyError` becomes `unsupportedScalarType`. -/
def structFor : List (PyStr × PyStr) → Except PlyError (List SChar)
  | [] => .ok []
  | (t, _) :: rest =>
    match _PLY_TYPE_TO_STRUCT t with
    | none => .error (.unsupportedScalarType t)
    | some c =>
      match structFor rest with
      | .error e => .error e
      | .ok cs => .ok (c :: cs)

/-- A vertex table: Python dict from property name to `float32` column,
in key-insertion order. -/
abbrev Table := List (PyStr × List Nat)

/-- Python dict assignment `t[k] = v`: update in place if the key exists,
else append. -/
def dictSet (t : Table) (k : PyStr) (v : List Nat) : Table :=
  match t with
  | [] => [(k, v)]
  | (k1, v1) :: rest => if k1 = k then (k, v) :: rest else (k1, v1) :: dictSet rest k v

/-- Python dict lookup `t[k]` (as an option). -/
def dictGet? (t : Table) (k : PyStr) : Option (List Nat) :=
  match t with
  | [] => none
  | (k1, v1) :: rest => if k1 = k then some v1 else dictGet? rest k

/-- The array-allocation loop of `read_vertex_table_binary`:
`arrays[p_name] = np.empty((vertex_count,), dtype=np.float32)` for each
property.  `np.empty` contents are unspecified and every cell is overwritten
before the table is returned; the model fills with the zero pattern. -/
def initArrays (props : List (PyStr × PyStr)) (n : Nat) : Table :=
  props.foldl (fun t p => dictSet t p.2 (List.replicate n 0)) []

/-- One record assignment round of the reader:
`for (p_type, p_name), v in zip(...): arrays[p_name][i] = float(v)`. -/
def assignRecord (props : List (PyStr × PyStr)) (vals : List PyVal) (i : Nat)
    (tbl : Table) : Table :=
  (props.zip vals).foldl
    (fun t pv => dictSet t pv.1.2 (((dictGet? t pv.1.2).getD []).set i (pyFloatToF32 pv.2)))
    tbl

/-- `struct.Struct.unpack` on one record chunk: slice the chunk at the
declared widths, in declared order. -/
def unpackRec (chars : List SChar) (e : Endian) (chunk : List Nat) : List PyVal :=
  match chars with
  | [] => []
  | c :: cs => unpackOne c e (chunk.take (width c)) :: unpackRec cs e (chunk.drop (width c))

/-- The record loop of `read_vertex_table_binary`: `k` records remain, `i`
is the current record index, `data` the unread bytes; a short `f.read`
raises `EOFError` naming the record index. -/
def readRecords (props : List (PyStr × PyStr)) (chars : List SChar) (e : Endian)
    (stride : Nat) (count : Int) :
    Nat → Nat → List Nat → Table → Except PlyError Table
  | 0, _, _, tbl => .ok tbl
  | k + 1, i, data, tbl =>
    let chunk := data.take stride
    if chunk.length = stride then
      readRecords props chars e stride count k (i + 1) (data.drop stride)
        (assignRecord props (unpackRec chars e chunk) i tbl)
    else .error (.eofVertexData i count)

/-- `read_vertex_table_binary(path, header)` over the bytes of the file at
`path`: reject non-binary formats, build the struct, allocate the columns
(`np.empty` raises on a negative count), seek to `data_start_offset` and
decode `vertex_count` fixed-stride records. -/
def read_vertex_table_binary (file : List Nat) (h : PlyHeader) : Except PlyError Table :=
  if h.format ≠ "binary_little_endian".toList ∧ h.format ≠ "binary_big_endian".toList then
    .error (.unsupportedFormat h.format)
  else
    let e := if h.format = "binary_little_endian".toList then Endian.little else Endian.big
    match structFor h.vertex_properties with
    | .error er => .error er
    | .ok chars =>
      if h.vertex_count < 0 ∧ h.vertex_properties ≠ [] then .error .negativeDimension
      else
        let stride := (chars.map width).sum
        readRecords h.vertex_properties chars e stride h.vertex_count
          h.vertex_count.toNat 0 (file.drop h.data_start_offset)
          (initArrays h.vertex_properties h.vertex_count.toNat)

/-- Result of running the vertex-table writer against a destination path:
whether the destination was opened (created/truncated), the bytes that
reached it, and the error if one was raised.  On an error, `written` holds
exactly the bytes emitted before the raise. -/
structure WriteResult where
  opened : Bool
  written : List Nat
  error : Option PlyError
  deriving Repr, DecidableEq

/-- The header lines built by `write_ply_binary_vertex_only`: regenerated
from the schema, never copied from an input file. -/
def headerLinesFor (n : Int) (schema : List (PyStr × PyStr)) : List PyStr :=
  ["ply".toList, "format binary_little_endian 1.0".toList,
    "element vertex ".toList ++ intToStr n]
  ++ schema.map (fun p => "property ".toList ++ p.1 ++ ' ' :: p.2)
  ++ ["end_header".toList]

/-- Python `"\n".join(lines) + "\n"`. -/
def joinNL (lines : List PyStr) : PyStr :=
  lines.foldr (fun l acc => l ++ '\n' :: acc) []

/-- The sanity-check loop of the writer: every schema property must have a
column (`KeyError`) of exactly `vertex_count` rows (`ValueError`); first
violation wins. -/
def validateCols (schema : List (PyStr × PyStr)) (cols : Table) (n : Int) :
    Option PlyError :=
  match schema with
  | [] => none
  | (_, nm) :: rest =>
    match dictGet? cols nm with
    | none => some (.missingColumn nm)
    | some col =>
      if (col.length : Int) ≠ n then some (.rowCountMismatch nm)
      else validateCols rest cols n

/-- `struct.pack` of one `float32` cell under format character `c`, little
endian: `f` serialises the bit pattern, `d` serialises its exact binary64
widening, and the integer formats raise `struct.error` because a
`numpy.float32` is not an integer. -/
def packValue (c : SChar) (v : Nat) : Except PlyError (List Nat) :=
  match c with
  | .fF => .ok (leBytes 4 v)
  | .dD => .ok (leBytes 8 (widenF32toF64 v))
  | _ => .error .packNotInteger

/-- `st.pack(*row)` for record `i`: the row is gathered by name from the
columns in schema order and packed as the concatenation of the per-property
encodings (no byte is produced if packing raises). -/
def packRow : List ((PyStr × PyStr) × SChar) → Table → Nat → Except PlyError (List Nat)
  | [], _, _ => .ok []
  | (p, c) :: rest, cols, i =>
    match packValue c (((dictGet? cols p.2).getD []).getD i 0) with
    | .error e => .error e
    | .ok bs =>
      match packRow rest cols i with
      | .error e => .error e
      | .ok brest => .ok (bs ++ brest)

/-- The record-writing loop: `k` records remain, `i` is the next record
index; the first component is the bytes that reached the file, the second
the error, if any, that interrupted the loop. -/
def writeRows (pcs : List ((PyStr × PyStr) × SChar)) (cols : Table) :
    Nat → Nat → List Nat × Option PlyError
  | 0, _ => ([], none)
  | k + 1, i =>
    match packRow pcs cols i with
    | .error e => ([], some e)
    | .ok rb =>
      let res := writeRows pcs cols k (i + 1)
      (rb ++ res.1, res.2)

/-- `write_ply_binary_vertex_only(path, vertex_count, schema, columns)`:
build the header text, build the struct (may raise `unsupportedScalarType`),
run the sanity checks, and only then open the destination, write the header
and stream the little-endian records. -/
def write_ply_binary_vertex_only (n : Int) (schema : List (PyStr × PyStr))
    (cols : Table) : WriteResult :=
  match structFor schema with
  | .error e => ⟨false, [], some e⟩
  | .ok chars =>
    match validateCols schema cols n with
    | some e => ⟨false, [], some e⟩
    | none =>
      match asciiEncode (joinNL (headerLinesFor n schema)) with
      | none => ⟨true, [], some .asciiEncodeError⟩
      | some hb =>
        let body := writeRows (schema.zip chars) cols n.toNat 0
        ⟨true, hb ++ body.1, body.2⟩

/-- `build_target_schema_from_train_header`: the reference header
contributes its vertex properties verbatim, in order. -/
def build_target_schema_from_train_header (h : PlyHeader) : List (PyStr × PyStr) :=
  h.vertex_properties

/-- `np.zeros((n,), dtype=np.float32)`: a column of `n` cells holding the
bit pattern of literal `0.0`; raises for a negative dimension. -/
def npZeros (n : Int) : Except PlyError (List Nat) :=
  if n < 0 then .error .negativeDimension else .ok (List.replicate n.toNat 0)

/-- The column-reconciliation loop of `convert` (building `out_cols` over
`target_schema`): copy the same-named source column when it exists
(`astype(np.float32, copy=False)` is the identity on a `float32` array),
otherwise synthesise a zero-filled column of `n` cells. -/
def reconcileLoop (src : Table) (n : Int) :
    List (PyStr × PyStr) → Table → Except PlyError Table
  | [], out => .ok out
  | (_, nm) :: rest, out =>
    match dictGet? src nm with
    | some col => reconcileLoop src n rest (dictSet out nm col)
    | none =>
      match npZeros n with
      | .error e => .error e
      | .ok z => reconcileLoop src n rest (dictSet out nm z)

/-- `reconcile(source_table, target_schema, source_vertex_count)`:
the loop above started on an empty dict. -/
def reconcile (src : Table) (schema : List (PyStr × PyStr)) (n : Int) :
    Except PlyError Table :=
  reconcileLoop src n schema []

/-- The names re-zeroed by the two defensive loops after reconciliation:
`nx, ny, nz` and `f_rest_0 .. f_rest_44`. -/
def fillNames : List PyStr :=
  ["nx".toList, "ny".toList, "nz".toList]
  ++ (List.range 45).map (fun i => "f_rest_".toList ++ natDigits i)

/-- The defensive fill loops of `convert`: `out_cols[name].fill(0.0)` for
each fill name present in the output and absent from the source. -/
def fillZeroCols (out : Table) (src : Table) : Table :=
  fillNames.foldl
    (fun t nm =>
      match dictGet? t nm, dictGet? src nm with
      | some col, none => dictSet t nm (List.replicate col.length 0)
      | _, _ => t)
    out

/-- `convert(teaser_path, train_path, output_path)` over the bytes of the
two input files: parse both headers, take the target schema from the
reference, read the source vertex table, reconcile, and write.  A failure
before the writer leaves the destination untouched. -/
def convert (teaser train : List Nat) : WriteResult :=
  match parse_ply_header teaser with
  | .error e => ⟨false, [], some e⟩
  | .ok th =>
    match parse_ply_header train with
    | .error e => ⟨false, [], some e⟩
    | .ok rh =>
      let target_schema := build_target_schema_from_train_header rh
      match read_vertex_table_binary teaser th with
      | .error e => ⟨false, [], some e⟩
      | .ok tcols =>
        match reconcile tcols target_schema th.vertex_count with
        | .error e => ⟨false, [], some e⟩
        | .ok out0 =>
          write_ply_binary_vertex_only th.vertex_count target_schema
            (fillZeroCols out0 tcols)

/-- Index of the last occurrence of `nm` in `names` (Python name-keyed
storage makes the last same-named property win). -/
def lastIdxOf (names : List PyStr) (nm : PyStr) : Option Nat :=
  match names with
  | [] => none
  | n0 :: rest =>
    match lastIdxOf rest nm with
    | some j => some (j + 1)
    | none => if n0 = nm then some 0 else none

/-- First-occurrence deduplication: the key order of a Python dict built by
successive assignments. -/
def dedupFirst : List PyStr → List PyStr
  | [] => []
  | n :: rest => n :: (dedupFirst rest).filter (fun x => x ≠ n)

/-- Functional specification of one output column of the reader: cell `i`
is the float32 widening of the value the last `nm`-named property decodes
from record `i`. -/
def specCol (props : List (PyStr × PyStr)) (chars : List SChar) (e : Endian)
    (data : List Nat) (stride n : Nat) (nm : PyStr) : List Nat :=
  (List.range n).map (fun i =>
    match lastIdxOf (props.map Prod.snd) nm with
    | some j =>
      pyFloatToF32 ((unpackRec chars e ((data.drop (i * stride)).take stride)).getD j (.int 0))
    | none => 0)

/-- Functional specification of the whole vertex table returned by the
reader on a file with enough body bytes. -/
def specTable (props : List (PyStr × PyStr)) (chars : List SChar) (e : Endian)
    (data : List Nat) (stride n : Nat) : Table :=
  (dedupFirst (props.map Prod.snd)).map
    (fun nm => (nm, specCol props chars e data stride n nm))

/-- Record stride determined by a property list alone (width 0 for an
unsupported type, where the reader fails before touching the body). -/
def strideOf (props : List (PyStr × PyStr)) : Nat :=
  (props.map (fun p => ((_PLY_TYPE_TO_STRUCT p.1).map width).getD 0)).sum

/-- A well-formed PLY token: nonempty, ASCII, no whitespace characters. -/
def goodToken (t : PyStr) : Bool :=
  !t.isEmpty && t.all (fun c => !isPySpace c && c.toNat < 128)

/-- Keys of `L` not yet present in `ks`, in first-occurrence order (the keys
a sequence of dict assignments appends to a dict that already has keys
`ks`). -/
def dedupNew (ks : List PyStr) : List PyStr → List PyStr
  | [] => []
  | k :: L => if k ∈ ks then dedupNew ks L else k :: dedupNew (ks ++ [k]) L

/-- The value the last same-named entry of one record-assignment round
contributes for key `x` (later zip entries win, as successive Python dict
item writes do). -/
def lastVal : List ((PyStr × PyStr) × PyVal) → PyStr → Option PyVal
  | [], _ => none
  | q :: L, x =>
    match lastVal L x with
    | some v => some v
    | none => if q.1.2 = x then some q.2 else none

/-- Successive in-place cell updates `col[i] := v0, col[i+1] := v1, ...`. -/
def setSeq : List Nat → Nat → List Nat → List Nat
  | col, _, [] => col
  | col, i, v :: vs => setSeq (col.set i v) (i + 1) vs

/-- The float32 cells that records `0 .. k-1` of the byte stream `d`
contribute to the column of the property at index `m`. -/
def recVals (chars : List SChar) (e : Endian) (stride : Nat) (d : List Nat)
    (k m : Nat) : List Nat :=
  (List.range k).map (fun j =>
    pyFloatToF32
      ((unpackRec chars e ((d.drop (j * stride)).take stride)).getD m (.int 0)))

/-- The bytes `struct.pack` emits for one `float32` cell under a float
format character (integer characters raise before emitting anything). -/
def packCell (c : SChar) (v : Nat) : List Nat :=
  match c with
  | .fF => leBytes 4 v
  | .dD => leBytes 8 (widenF32toF64 v)
  | _ => []

/-- The bytes of one packed record over float-typed schema entries. -/
def rowBytes (pcs : List ((PyStr × PyStr) × SChar)) (cols : Table)
    (i : Nat) : List Nat :=
  pcs.foldr
    (fun q acc => packCell q.2 (((dictGet? cols q.1.2).getD []).getD i 0) ++ acc)
    []

/-! ## Byte-serialisation lemmas -/

theorem leBytes_length (w v : Nat) : (leBytes w v).length = w := by
  induction w generalizing v with
  | zero => rfl
  | succ w ih => simp [leBytes, ih]

theorem leBytes_leNat (bs : List Nat) (hb : ∀ b ∈ bs, b < 256) :
    leBytes bs.length (leNat bs) = bs := by
  induction bs with
  | nil => rfl
  | cons b rest ih =>
    have hb0 : b < 256 := hb b (by simp)
    have h1 : (b + 256 * leNat rest) % 256 = b := by
      rw [Nat.add_mul_mod_self_left, Nat.mod_eq_of_lt hb0]
    have h2 : (b + 256 * leNat rest) / 256 = leNat rest := by
      rw [Nat.add_mul_div_left _ _ (by omega), Nat.div_eq_of_lt hb0, Nat.zero_add]
    simp only [List.length_cons, leBytes, leNat, h1, h2]
    rw [ih (fun x hx => hb x (by simp [hx]))]

theorem leNat_lt (bs : List Nat) (hb : ∀ b ∈ bs, b < 256) :
    leNat bs < 256 ^ bs.length := by
  induction bs with
  | nil => simp [leNat]
  | cons b rest ih =>
    have hb0 : b < 256 := hb b (by simp)
    have hr : leNat rest < 256 ^ rest.length := ih (fun x hx => hb x (by simp [hx]))
    show b + 256 * leNat rest < 256 ^ (rest.length + 1)
    rw [Nat.pow_succ]
    omega

theorem orient_roundtrip (e : Endian) (bs : List Nat) (hb : ∀ b ∈ bs, b < 256) :
    orientBytes e bs.length (orientNat e bs) = bs := by
  cases e with
  | little => exact leBytes_leNat bs hb
  | big =>
    show (leBytes bs.length (leNat bs.reverse)).reverse = bs
    rw [← List.length_reverse bs, leBytes_leNat bs.reverse
      (fun x hx => hb x (List.mem_reverse.mp hx)), List.reverse_reverse]

theorem orientNat_lt (e : Endian) (bs : List Nat) (hb : ∀ b ∈ bs, b < 256) :
    orientNat e bs < 256 ^ bs.length := by
  cases e with
  | little => exact leNat_lt bs hb
  | big =>
    have := leNat_lt bs.reverse (fun x hx => hb x (List.mem_reverse.mp hx))
    simpa using this

theorem width_pos (c : SChar) : 0 < width c := by cases c <;> simp [width]

/-- Claim C9: Scalar codec symmetry — for every scalar type name in the
registry `_PLY_TYPE_TO_STRUCT` and either endianness, decoding a byte
pattern of the width of the type and re-encoding the decoded value with the
same type and endianness yields the original byte pattern (floats are
represented by their IEEE bit patterns, so this covers every representable
value of each type). -/
theorem c9_codec_roundtrip (t : PyStr) (c : SChar) (e : Endian) (bs : List Nat)
    (hc : _PLY_TYPE_TO_STRUCT t = some c) (hlen : bs.length = width c)
    (hb : ∀ b ∈ bs, b < 256) :
    encodeScalar c e (decodeScalar c e bs) = some bs := by
  clear hc
  have hu : orientNat e bs < 256 ^ width c := by
    rw [← hlen]; exact orientNat_lt e bs hb
  have hrt : orientBytes e (width c) (orientNat e bs) = bs := by
    rw [← hlen]; exact orient_roundtrip e bs hb
  have hw : 0 < width c := width_pos c
  have heven : 256 ^ width c / 2 * 2 = 256 ^ width c := by
    obtain ⟨m, hm⟩ : ∃ m, 256 ^ width c = 256 * m :=
      ⟨256 ^ (width c - 1), by
        conv_lhs => rw [← Nat.sub_add_cancel hw]
        rw [Nat.pow_succ, Nat.mul_comm]⟩
    omega
  simp only [decodeScalar, encodeScalar, toSigned]
  revert hu heven
  generalize 256 ^ width c = K
  intro hu heven
  generalize hudef : orientNat e bs = u at hu hrt ⊢
  cases hs : isSignedInt c with
  | false =>
    simp only [hs, Bool.false_eq_true, if_false]
    rw [if_pos ⟨Int.ofNat_nonneg _, by exact_mod_cast hu⟩]
    simpa using hrt
  | true =>
    simp only [hs, if_true]
    by_cases hlt : u < K / 2
    · rw [if_pos hlt, if_pos (by constructor <;> omega)]
      have hmod : (u : Int) % ((K : Nat) : Int) = (u : Int) :=
        Int.emod_eq_of_lt (by omega) (by omega)
      rw [hmod]
      simpa using hrt
    · rw [if_neg hlt, if_pos (by constructor <;> omega)]
      have hmod : ((u : Int) - ((K : Nat) : Int)) % ((K : Nat) : Int) = (u : Int) := by
        rw [Int.sub_emod, Int.emod_self, Int.sub_zero,
          Int.emod_emod_of_dvd _ (dvd_refl _)]
        exact Int.emod_eq_of_lt (by omega) (by omega)
      rw [hmod]
      simpa using hrt

/-- Witness for C9 at a concrete input: the big-endian signed 16-bit codec
round-trips the byte pattern `[1, 255]`. -/
theorem c9_witness :
    encodeScalar .sh .big (decodeScalar .sh .big [1, 255]) = some [1, 255] :=
  c9_codec_roundtrip "short".toList .sh .big [1, 255] (by decide) (by decide)
    (by decide)

/-! ## Claim C6: format validation happens at read time, not parse time -/

/-- Counterexample to C6 as stated: a header whose format token `banana` is
neither of the two binary variants (nor `ascii`) is accepted by
`parse_ply_header`, which records the token without validating it. -/
theorem c6_counterexample :
    parse_ply_header (("ply\nformat banana 1.0\nelement vertex 0\nend_header\n").toList.map Char.toNat) =
      .ok ⟨"banana".toList, "1.0".toList, 0, [],
        ["ply".toList, "format banana 1.0".toList, "element vertex 0".toList,
          "end_header".toList], 50⟩ := by
  rfl

/-- Claim C6 (amended): header parsing records the format token without
validating it; a file whose format is not one of the two binary variants —
whether `ascii` or anything else — is rejected at vertex-table read time
with the unsupported-format error. -/
theorem c6_read_rejects_nonbinary (f : List Nat) (h : PlyHeader)
    (h1 : h.format ≠ "binary_little_endian".toList)
    (h2 : h.format ≠ "binary_big_endian".toList) :
    read_vertex_table_binary f h = .error (.unsupportedFormat h.format) := by
  unfold read_vertex_table_binary
  rw [if_pos ⟨h1, h2⟩]

/-- Witness for C6 at a concrete input: a parsed `ascii` header reaches the
reader and is rejected there. -/
theorem c6_witness :
    read_vertex_table_binary []
        ⟨"ascii".toList, "1.0".toList, 0, [], [], 0⟩ =
      .error (.unsupportedFormat "ascii".toList) :=
  c6_read_rejects_nonbinary [] _ (by decide) (by decide)

/-! ## Claim C5: which writer failures precede the first written byte -/

theorem packValue_error (c : SChar) (v : Nat) (e1 : PlyError)
    (h : packValue c v = .error e1) : e1 = .packNotInteger := by
  cases c <;> simp [packValue] at h <;> exact h.symm

theorem packRow_error : ∀ (pcs : List ((PyStr × PyStr) × SChar)) (cols : Table)
    (i : Nat) (e1 : PlyError),
    packRow pcs cols i = .error e1 → e1 = .packNotInteger := by
  intro pcs
  induction pcs with
  | nil => intro cols i e1 h; simp [packRow] at h
  | cons pc rest ih =>
    intro cols i e1 h
    obtain ⟨p, c⟩ := pc
    simp only [packRow] at h
    cases hpv : packValue c (((dictGet? cols p.2).getD []).getD i 0) with
    | error e2 =>
      rw [hpv] at h
      injection h with h2
      subst h2
      exact packValue_error _ _ _ hpv
    | ok bs =>
      rw [hpv] at h
      cases hpr : packRow rest cols i with
      | error e3 =>
        rw [hpr] at h
        injection h with h2
        subst h2
        exact ih _ _ _ hpr
      | ok brest =>
        rw [hpr] at h
        exact absurd h (by simp)

theorem writeRows_error (pcs : List ((PyStr × PyStr) × SChar)) (cols : Table) :
    ∀ (k i : Nat) (e1 : PlyError),
    (writeRows pcs cols k i).2 = some e1 → e1 = .packNotInteger := by
  intro k
  induction k with
  | zero => intro i e1 h; simp [writeRows] at h
  | succ k ih =>
    intro i e1 h
    simp only [writeRows] at h
    cases hpr : packRow pcs cols i with
    | error e2 =>
      rw [hpr] at h
      injection h with h2
      subst h2
      exact packRow_error _ _ _ _ hpr
    | ok rb =>
      rw [hpr] at h
      exact ih _ _ h

/-- Claim C5 (amended): a missing-column or row-count-mismatch precondition
violation is raised by the sanity checks before the destination file is
even opened, so no byte has been written; but a failure while packing
records — an integer-typed schema property, whose column cells are
`numpy.float32` values — is raised only after the header bytes have been
written, leaving a partial output file (see the counterexample). -/
theorem c5_validation_failfast (n : Int) (schema : List (PyStr × PyStr))
    (cols : Table) (res : WriteResult) (nm : PyStr)
    (hres : write_ply_binary_vertex_only n schema cols = res)
    (herr : res.error = some (.missingColumn nm) ∨
      res.error = some (.rowCountMismatch nm)) :
    res.opened = false ∧ res.written = [] := by
  subst hres
  cases hs : structFor schema with
  | error e =>
    simp [write_ply_binary_vertex_only, hs]
  | ok chars =>
    cases hv : validateCols schema cols n with
    | some e =>
      simp [write_ply_binary_vertex_only, hs, hv]
    | none =>
      cases ha : asciiEncode (joinNL (headerLinesFor n schema)) with
      | none =>
        simp only [write_ply_binary_vertex_only, hs, hv, ha] at herr
        rcases herr with h | h <;> exact absurd h (by simp)
      | some hb =>
        simp only [write_ply_binary_vertex_only, hs, hv, ha] at herr
        rcases herr with h | h <;>
          · have h2 := writeRows_error _ _ _ _ _ h
            exact absurd h2 (by simp)

/-- Witness for C5 at a concrete input: a missing column fails with the
destination untouched. -/
theorem c5_witness :
    (write_ply_binary_vertex_only 1 [("float".toList, "x".toList)] []).opened = false ∧
    (write_ply_binary_vertex_only 1 [("float".toList, "x".toList)] []).written = [] :=
  c5_validation_failfast 1 [("float".toList, "x".toList)] [] _ ("x".toList) rfl
    (Or.inl (by decide))

/-- Counterexample to C5 as stated: with an integer-typed schema property
(`uchar`) and one vertex, the writer passes validation, writes the header,
and only then fails packing the first record — the failed write leaves a
nonempty partial output file. -/
theorem c5_counterexample :
    (write_ply_binary_vertex_only 1 [("uchar".toList, "a".toList)]
        [("a".toList, [natToF32bits 1])]).error = some .packNotInteger ∧
    (write_ply_binary_vertex_only 1 [("uchar".toList, "a".toList)]
        [("a".toList, [natToF32bits 1])]).written ≠ [] := by
  decide

/-! ## Claim C4: truncated body fails with the first short record index -/

theorem readRecords_eof (props : List (PyStr × PyStr)) (chars : List SChar)
    (e : Endian) (stride : Nat) (count : Int) (hstride : 0 < stride) :
    ∀ (k i : Nat) (data : List Nat) (tbl : Table), data.length < k * stride →
      readRecords props chars e stride count k i data tbl =
        .error (.eofVertexData (i + data.length / stride) count) := by
  intro k
  induction k with
  | zero => intro i data tbl h; simp at h
  | succ k ih =>
    intro i data tbl h
    have hmul : (k + 1) * stride = k * stride + stride := Nat.succ_mul k stride
    simp only [readRecords]
    by_cases hlen : stride ≤ data.length
    · rw [if_pos (by rw [List.length_take]; omega)]
      rw [ih (i + 1) (data.drop stride) _ (by rw [List.length_drop]; omega)]
      rw [List.length_drop]
      have harith : i + 1 + (data.length - stride) / stride =
          i + data.length / stride := by
        rw [Nat.div_eq_sub_div hstride hlen]
        omega
      rw [harith]
    · rw [if_neg (by rw [List.length_take]; omega)]
      rw [Nat.div_eq_of_lt (by omega)]
      simp

/-- Claim C4: for every binary source file whose declared vertex count needs
more body bytes than exist after `data_start_offset`, the reader fails with
the `UnexpectedEof` error carrying the index of the first short record (and
the declared count), so no partially filled table is returned. -/
theorem c4_truncated_body (file : List Nat) (h : PlyHeader) (chars : List SChar)
    (hfmt : h.format = "binary_little_endian".toList ∨
      h.format = "binary_big_endian".toList)
    (hst : structFor h.vertex_properties = .ok chars)
    (hn : 0 ≤ h.vertex_count)
    (havail : file.length - h.data_start_offset <
      h.vertex_count.toNat * (chars.map width).sum) :
    read_vertex_table_binary file h =
      .error (.eofVertexData
        ((file.length - h.data_start_offset) / (chars.map width).sum)
        h.vertex_count) := by
  have hstride : 0 < (chars.map width).sum := by
    by_contra h0
    have h1 : (chars.map width).sum = 0 := by omega
    rw [h1, Nat.mul_zero] at havail
    omega
  unfold read_vertex_table_binary
  rw [if_neg (by rcases hfmt with h1 | h1 <;> simp [h1])]
  rw [hst]
  simp only
  rw [if_neg (by rintro ⟨h1, _⟩; omega)]
  rw [readRecords_eof _ _ _ _ _ hstride _ 0 _ _
    (by rw [List.length_drop]; exact havail)]
  rw [List.length_drop]
  simp

/-- Witness for C4 at a concrete input: six body bytes cannot hold two
four-byte records; the reader reports record index 1 as short. -/
theorem c4_witness :
    read_vertex_table_binary [0, 0, 0, 0, 0, 0]
        ⟨"binary_little_endian".toList, "1.0".toList, 2,
          [("float".toList, "x".toList)], [], 0⟩ =
      .error (.eofVertexData 1 2) := by
  have h := c4_truncated_body [0, 0, 0, 0, 0, 0]
    ⟨"binary_little_endian".toList, "1.0".toList, 2,
      [("float".toList, "x".toList)], [], 0⟩ [.fF]
    (Or.inl rfl) (by rfl) (by decide) (by decide)
  simpa using h

/-! ## Dict lemmas: assignment folds over name-keyed dicts -/

theorem dictGet?_dictSet_self (t : Table) (k : PyStr) (v : List Nat) :
    dictGet? (dictSet t k v) k = some v := by
  induction t with
  | nil => simp [dictSet, dictGet?]
  | cons p rest ih =>
    obtain ⟨k1, v1⟩ := p
    by_cases hk : k1 = k
    · simp [dictSet, dictGet?, hk]
    · simp [dictSet, dictGet?, hk, ih]

theorem dictGet?_dictSet_ne (t : Table) (k k1 : PyStr) (v : List Nat)
    (hne : k ≠ k1) : dictGet? (dictSet t k v) k1 = dictGet? t k1 := by
  induction t with
  | nil => simp [dictSet, dictGet?, hne]
  | cons p rest ih =>
    obtain ⟨k2, v2⟩ := p
    by_cases hk : k2 = k
    · subst hk
      simp [dictSet, dictGet?, hne]
    · simp only [dictSet, if_neg hk, dictGet?]
      by_cases hk1 : k2 = k1 <;> simp [hk1, ih]

theorem dictSet_mapform (K : List PyStr) (f : PyStr → List Nat) (k : PyStr) :
    dictSet (K.map (fun x => (x, f x))) k (f k) =
      (if k ∈ K then K else K ++ [k]).map (fun x => (x, f x)) := by
  induction K with
  | nil => simp [dictSet]
  | cons x K ih =>
    by_cases hx : x = k
    · subst hx
      simp [dictSet]
    · have hxk : ¬ (k = x) := fun h => hx h.symm
      simp only [List.map_cons, dictSet, if_neg hx, ih, List.mem_cons]
      by_cases hm : k ∈ K
      · simp [hm, hxk]
      · simp [hm, hxk]

theorem foldSet_inv (f : PyStr → List Nat) :
    ∀ (L K : List PyStr),
      L.foldl (fun t k => dictSet t k (f k)) (K.map (fun x => (x, f x))) =
        (K ++ dedupNew K L).map (fun x => (x, f x)) := by
  intro L
  induction L with
  | nil => intro K; simp [dedupNew]
  | cons k L ih =>
    intro K
    simp only [List.foldl_cons, dictSet_mapform, dedupNew]
    by_cases hm : k ∈ K
    · rw [if_pos hm, if_pos hm, ih]
    · rw [if_neg hm, if_neg hm, ih]
      simp

theorem dedupNew_filter : ∀ (L ks : List PyStr),
    dedupNew ks L = (dedupFirst L).filter (fun x => decide (x ∉ ks)) := by
  intro L
  induction L with
  | nil => intro ks; simp [dedupNew, dedupFirst]
  | cons k L ih =>
    intro ks
    simp only [dedupNew, dedupFirst]
    by_cases hm : k ∈ ks
    · rw [if_pos hm, ih ks, List.filter_cons]
      rw [if_neg (by simp [hm])]
      rw [List.filter_filter]
      apply List.filter_congr
      intro x hx
      by_cases hxks : x ∈ ks
      · simp [hxks]
      · have hxk : x ≠ k := by
          intro hq
          exact hxks (hq ▸ hm)
        simp [hxks, hxk]
    · rw [if_neg hm, ih (ks ++ [k]), List.filter_cons]
      rw [if_pos (by simp [hm])]
      rw [List.filter_filter]
      congr 1
      apply List.filter_congr
      intro x hx
      by_cases hxk : x = k
      · simp [hxk]
      · by_cases hxks : x ∈ ks <;> simp [hxk, hxks]

theorem dedupNew_nil (L : List PyStr) : dedupNew [] L = dedupFirst L := by
  rw [dedupNew_filter]
  apply List.filter_eq_self.mpr
  intro x _
  simp

theorem foldSet_nil (f : PyStr → List Nat) (L : List PyStr) :
    L.foldl (fun t k => dictSet t k (f k)) [] =
      (dedupFirst L).map (fun x => (x, f x)) := by
  have h := foldSet_inv f L []
  simpa [dedupNew_nil] using h

theorem foldSetPairs_nil (f : PyStr → List Nat) (L : List (PyStr × PyStr)) :
    L.foldl (fun t p => dictSet t p.2 (f p.2)) [] =
      (dedupFirst (L.map Prod.snd)).map (fun x => (x, f x)) := by
  have h := foldSet_nil f (L.map Prod.snd)
  rw [List.foldl_map] at h
  exact h

theorem mem_dedupFirst : ∀ (L : List PyStr) (x : PyStr),
    x ∈ dedupFirst L ↔ x ∈ L := by
  intro L
  induction L with
  | nil => intro x; simp [dedupFirst]
  | cons k L ih =>
    intro x
    simp only [dedupFirst, List.mem_cons, List.mem_filter, ih, decide_eq_true_eq]
    constructor
    · rintro (h | ⟨h1, _⟩)
      · exact Or.inl h
      · exact Or.inr h1
    · rintro (h | h)
      · exact Or.inl h
      · by_cases hk : x = k
        · exact Or.inl hk
        · exact Or.inr ⟨h, hk⟩

theorem dictGet?_mapform (K : List PyStr) (f : PyStr → List Nat) (k : PyStr) :
    dictGet? (K.map (fun x => (x, f x))) k =
      if k ∈ K then some (f k) else none := by
  induction K with
  | nil => simp [dictGet?]
  | cons x K ih =>
    simp only [List.map_cons, dictGet?, List.mem_cons]
    by_cases hx : x = k
    · subst hx
      simp
    · have hkx : ¬ (k = x) := fun h => hx h.symm
      simp [hx, hkx, ih]

/-! ## Claim C1: reconciliation is total and deterministic -/

theorem reconcileLoop_eq_fold (src : Table) (n : Int) (hn : 0 ≤ n) :
    ∀ (schema : List (PyStr × PyStr)) (out : Table),
      reconcileLoop src n schema out =
        .ok (schema.foldl
          (fun t p => dictSet t p.2
            ((dictGet? src p.2).getD (List.replicate n.toNat 0))) out) := by
  intro schema
  induction schema with
  | nil => intro out; rfl
  | cons p rest ih =>
    intro out
    obtain ⟨t0, nm⟩ := p
    cases hsrc : dictGet? src nm with
    | some col =>
      simp only [reconcileLoop, hsrc, List.foldl_cons, ih, Option.getD_some]
    | none =>
      simp only [reconcileLoop, hsrc, List.foldl_cons,
        show npZeros n = Except.ok (List.replicate n.toNat 0) from by
          simp only [npZeros]
          rw [if_neg (by omega)],
        ih, Option.getD_none]

/-- Claim C1: column reconciliation is total and deterministic.  For a
non-negative source vertex count, `reconcile` succeeds; for every
`(type, name)` of the target schema the output has a column for `name` — the
source column when a same-named one exists, otherwise `source_vertex_count`
cells all holding literal `0.0` (bit pattern 0, never NaN or uninitialised) —
no name outside the target schema appears in the output, and the output keys
are the schema names in first-occurrence order. -/
theorem c1_reconcile_total_deterministic (src : Table)
    (schema : List (PyStr × PyStr)) (n : Int) (hn : 0 ≤ n) :
    ∃ out, reconcile src schema n = .ok out ∧
      (∀ t nm, (t, nm) ∈ schema →
        dictGet? out nm = some ((dictGet? src nm).getD (List.replicate n.toNat 0))) ∧
      (∀ nm, (dictGet? out nm).isSome → nm ∈ schema.map Prod.snd) ∧
      out.map Prod.fst = dedupFirst (schema.map Prod.snd) := by
  refine ⟨(dedupFirst (schema.map Prod.snd)).map
    (fun nm => (nm, (dictGet? src nm).getD (List.replicate n.toNat 0))), ?_, ?_, ?_, ?_⟩
  · unfold reconcile
    rw [reconcileLoop_eq_fold src n hn schema []]
    exact congrArg Except.ok
      (foldSetPairs_nil (fun nm => (dictGet? src nm).getD (List.replicate n.toNat 0)) schema)
  · intro t nm hmem
    rw [dictGet?_mapform]
    rw [if_pos ((mem_dedupFirst _ _).mpr (List.mem_map.mpr ⟨(t, nm), hmem, rfl⟩))]
  · intro nm hsome
    rw [dictGet?_mapform] at hsome
    by_cases hmem : nm ∈ dedupFirst (schema.map Prod.snd)
    · exact (mem_dedupFirst _ _).mp hmem
    · rw [if_neg hmem] at hsome
      simp at hsome
  · rw [List.map_map]
    have : (Prod.fst ∘ fun nm =>
        (nm, (dictGet? src nm).getD (List.replicate n.toNat 0))) = id := rfl
    rw [this, List.map_id]

/-- Witness for C1 at a concrete input: a two-property schema against a
source table that has only the first column, with one vertex. -/
theorem c1_witness :
    0 ≤ (1 : Int) ∧
    ∃ out, reconcile [("x".toList, [5])]
        [("float".toList, "x".toList), ("float".toList, "nx".toList)] 1 = .ok out ∧
      (∀ t nm, (t, nm) ∈ [("float".toList, "x".toList), ("float".toList, "nx".toList)] →
        dictGet? out nm = some ((dictGet? [("x".toList, [5])] nm).getD
          (List.replicate (1 : Int).toNat 0))) ∧
      (∀ nm, (dictGet? out nm).isSome →
        nm ∈ [("float".toList, "x".toList), ("float".toList, "nx".toList)].map Prod.snd) ∧
      out.map Prod.fst =
        dedupFirst ([("float".toList, "x".toList), ("float".toList, "nx".toList)].map Prod.snd) :=
  ⟨by decide, c1_reconcile_total_deterministic [("x".toList, [5])]
    [("float".toList, "x".toList), ("float".toList, "nx".toList)] 1 (by decide)⟩

/-! ## String and line toolkit for the header parser -/

theorem decodeAscii_encode (s : PyStr) (h : s.all (fun c => c.toNat < 128) = true) :
    decodeAscii (s.map Char.toNat) = some s := by
  unfold decodeAscii
  rw [if_pos (by
    refine List.all_eq_true.mpr ?_
    intro b hb
    obtain ⟨c, hc, rfl⟩ := List.mem_map.mp hb
    exact List.all_eq_true.mp h c hc)]
  have hmap : (Char.ofNat ∘ Char.toNat) = id := funext Char.ofNat_toNat
  rw [List.map_map, hmap, List.map_id]

theorem splitNLCons_encode : ∀ (l rest : List Nat) (b : Nat) (bs : List Nat),
    (∀ x ∈ l, x ≠ 10) → b :: bs = l ++ 10 :: rest →
    splitNLCons b bs = (l ++ [10], rest) := by
  intro l
  induction l with
  | nil =>
    intro rest b bs _ heq
    have h1 : b = 10 := by injection heq
    have h2 : bs = rest := by injection heq
    rw [h1, h2]
    unfold splitNLCons
    rw [if_pos rfl]
    rfl
  | cons x l2 ihl =>
    intro rest b bs h heq
    rw [List.cons_append] at heq
    have h1 : b = x := by injection heq
    have h2 : bs = l2 ++ 10 :: rest := by injection heq
    have hx : x ≠ 10 := h x (by simp)
    rw [h1, h2]
    cases hl : l2 ++ 10 :: rest with
    | nil => simp at hl
    | cons c rs =>
      simp only [splitNLCons, if_neg hx, hl]
      rw [ihl rest c rs (fun y hy => h y (by simp [hy])) hl.symm]
      simp

theorem head_reverse_mem {α : Type} : ∀ (l : List α) (y : α) (ys : List α),
    l.reverse = y :: ys → y ∈ l := by
  intro l y ys h
  have : y ∈ l.reverse := by rw [h]; simp
  exact List.mem_reverse.mp this

theorem rstrip_append_nl (L : PyStr) (h : ∀ c ∈ L, c ≠ '\n' ∧ c ≠ '\r') :
    rstripCRLF (L ++ ['\n']) = L := by
  unfold rstripCRLF
  rw [List.reverse_append]
  simp only [List.reverse_cons, List.reverse_nil, List.nil_append, List.singleton_append]
  rw [List.dropWhile_cons, if_pos (by decide)]
  cases hrev : L.reverse with
  | nil =>
    simp only [List.dropWhile_nil, List.reverse_nil]
    exact (List.reverse_eq_nil_iff.mp hrev).symm
  | cons y ys =>
    have hy := h y (head_reverse_mem L y ys hrev)
    rw [List.dropWhile_cons, if_neg (by simp [hy.1, hy.2])]
    rw [← hrev, List.reverse_reverse]

theorem pyStrip_eq_self (x : Char) (xs : PyStr) (hx : isPySpace x = false)
    (hlast : ∀ y ys, (x :: xs).reverse = y :: ys → isPySpace y = false) :
    pyStrip (x :: xs) = x :: xs := by
  unfold pyStrip
  rw [List.dropWhile_cons, if_neg (by simp [hx])]
  cases hrev : (x :: xs).reverse with
  | nil => simp at hrev
  | cons y ys =>
    have hy := hlast y ys hrev
    rw [List.dropWhile_cons, if_neg (by simp [hy])]
    rw [← hrev, List.reverse_reverse]

theorem last_of_append_token (A nm : PyStr) (hne : nm ≠ []) :
    ∀ y ys, (A ++ nm).reverse = y :: ys → y ∈ nm := by
  intro y ys h
  rw [List.reverse_append] at h
  cases hrev : nm.reverse with
  | nil => exact absurd (List.reverse_eq_nil_iff.mp hrev) hne
  | cons c cs =>
    rw [hrev] at h
    have h1 : y = c := by injection h with h1 _; exact h1.symm
    rw [h1]
    exact head_reverse_mem nm c cs hrev

theorem pySplitAux_nonspace : ∀ (t s cur : PyStr), (∀ c ∈ t, isPySpace c = false) →
    pySplitAux (t ++ s) cur = pySplitAux s (t.reverse ++ cur) := by
  intro t
  induction t with
  | nil => intro s cur _; simp
  | cons c t2 ih =>
    intro s cur h
    have hc : isPySpace c = false := h c (by simp)
    show pySplitAux (c :: (t2 ++ s)) cur = _
    simp only [pySplitAux, hc, Bool.false_eq_true, if_false]
    rw [ih s (c :: cur) (fun y hy => h y (by simp [hy]))]
    simp [List.append_assoc]

theorem pySplit_single (t : PyStr) (hne : t ≠ [])
    (h : ∀ c ∈ t, isPySpace c = false) : pySplitAux t [] = [t] := by
  have h1 := pySplitAux_nonspace t [] [] h
  rw [List.append_nil] at h1
  rw [h1]
  simp only [pySplitAux, List.append_nil]
  rw [if_neg (by simp [hne]), List.reverse_reverse]

theorem pySplit_sep (a : PyStr) (s : PyStr) (hne : a ≠ [])
    (h : ∀ c ∈ a, isPySpace c = false) :
    pySplitAux (a ++ ' ' :: s) [] = a :: pySplitAux s [] := by
  rw [pySplitAux_nonspace a (' ' :: s) [] h]
  simp only [List.append_nil]
  show pySplitAux (' ' :: s) a.reverse = _
  simp only [pySplitAux, show isPySpace ' ' = true from rfl, if_true]
  rw [if_neg (by simp [hne]), List.reverse_reverse]

/-! ## Decimal digits and Python int parsing -/

theorem digitChar_val : ∀ d, d < 10 → digitVal (Char.ofNat (48 + d)) = d := by decide

theorem digitChar_facts : ∀ d, d < 10 →
    isPySpace (Char.ofNat (48 + d)) = false ∧
    isDigitCh (Char.ofNat (48 + d)) = true ∧
    (Char.ofNat (48 + d)).toNat < 128 ∧
    Char.ofNat (48 + d) ≠ '\n' ∧ Char.ofNat (48 + d) ≠ '\r' ∧
    Char.ofNat (48 + d) ≠ '-' ∧ Char.ofNat (48 + d) ≠ '+' := by decide

theorem natDigitsF_mem : ∀ (fuel n : Nat) (c : Char), c ∈ natDigitsF fuel n →
    ∃ d, d < 10 ∧ c = Char.ofNat (48 + d) := by
  intro fuel
  induction fuel with
  | zero => intro n c hc; simp [natDigitsF] at hc
  | succ fuel ih =>
    intro n c hc
    by_cases h10 : n < 10
    · simp only [natDigitsF, if_pos h10, List.mem_singleton] at hc
      exact ⟨n, h10, hc⟩
    · simp only [natDigitsF, if_neg h10, List.mem_append, List.mem_singleton] at hc
      rcases hc with hc | hc
      · exact ih _ _ hc
      · exact ⟨n % 10, Nat.mod_lt _ (by omega), hc⟩

theorem natDigitsF_ne_nil : ∀ (fuel n : Nat), 0 < fuel → natDigitsF fuel n ≠ [] := by
  intro fuel n hf
  cases fuel with
  | zero => omega
  | succ fuel =>
    by_cases h10 : n < 10
    · simp [natDigitsF, if_pos h10]
    · simp [natDigitsF, if_neg h10]

theorem digitsToNat_append : ∀ (d1 d2 : PyStr) (acc : Nat),
    digitsToNat acc (d1 ++ d2) = digitsToNat (digitsToNat acc d1) d2 := by
  intro d1
  induction d1 with
  | nil => intro d2 acc; rfl
  | cons c d1 ih => intro d2 acc; exact ih d2 (acc * 10 + digitVal c)

theorem digitsToNat_single (acc : Nat) (c : Char) :
    digitsToNat acc [c] = acc * 10 + digitVal c := rfl

theorem digitsToNat_natDigitsF : ∀ (fuel n acc : Nat), n < fuel →
    digitsToNat acc (natDigitsF fuel n) =
      acc * 10 ^ (natDigitsF fuel n).length + n := by
  intro fuel
  induction fuel with
  | zero => intro n acc h; omega
  | succ fuel ih =>
    intro n acc h
    by_cases h10 : n < 10
    · have hrw : natDigitsF (fuel + 1) n = [Char.ofNat (48 + n)] := by
        unfold natDigitsF
        rw [if_pos h10]
      rw [hrw, digitsToNat_single, digitChar_val n h10, List.length_singleton,
        Nat.pow_one]
    · have hrw : natDigitsF (fuel + 1) n =
          natDigitsF fuel (n / 10) ++ [Char.ofNat (48 + n % 10)] := by
        conv_lhs => rw [natDigitsF]
        rw [if_neg h10]
      have hlt : n / 10 < fuel := by
        have := Nat.div_lt_self (show 0 < n by omega) (show 1 < 10 by omega)
        omega
      rw [hrw, digitsToNat_append, ih (n / 10) acc hlt, digitsToNat_single,
        digitChar_val (n % 10) (Nat.mod_lt _ (by omega)),
        List.length_append, List.length_singleton, Nat.pow_succ, Nat.add_mul,
        ← Nat.mul_assoc]
      have hmod := Nat.div_add_mod n 10
      omega

theorem digitsToNat_natDigits (n : Nat) : digitsToNat 0 (natDigits n) = n := by
  unfold natDigits
  rw [digitsToNat_natDigitsF (n + 1) n 0 (by omega)]
  simp

theorem natDigits_ne_nil (n : Nat) : natDigits n ≠ [] :=
  natDigitsF_ne_nil (n + 1) n (by omega)

theorem natDigits_mem (n : Nat) (c : Char) (hc : c ∈ natDigits n) :
    ∃ d, d < 10 ∧ c = Char.ofNat (48 + d) :=
  natDigitsF_mem (n + 1) n c hc

theorem intToStr_chars (i : Int) : ∀ c ∈ intToStr i,
    isPySpace c = false ∧ c.toNat < 128 ∧ c ≠ '\n' ∧ c ≠ '\r' := by
  intro c hc
  unfold intToStr at hc
  have hdig : ∀ m : Nat, c ∈ natDigits m →
      isPySpace c = false ∧ c.toNat < 128 ∧ c ≠ '\n' ∧ c ≠ '\r' := by
    intro m hm
    obtain ⟨d, hd, rfl⟩ := natDigits_mem m c hm
    obtain ⟨h1, _, h3, h4, h5, _⟩ := digitChar_facts d hd
    exact ⟨h1, h3, h4, h5⟩
  by_cases hneg : i < 0
  · rw [if_pos hneg] at hc
    rcases List.mem_cons.mp hc with rfl | hc2
    · refine ⟨by decide, by decide, by decide, by decide⟩
    · exact hdig _ hc2
  · rw [if_neg hneg] at hc
    exact hdig _ hc

theorem intToStr_ne_nil (i : Int) : intToStr i ≠ [] := by
  unfold intToStr
  by_cases hneg : i < 0
  · simp [if_pos hneg]
  · simp only [if_neg hneg]
    exact natDigits_ne_nil _

theorem pyStrip_of_nonspace (s : PyStr) (hne : s ≠ [])
    (h : ∀ c ∈ s, isPySpace c = false) : pyStrip s = s := by
  cases s with
  | nil => simp at hne
  | cons x xs =>
    exact pyStrip_eq_self x xs (h x (by simp))
      (fun y ys hrev => h y (head_reverse_mem _ y ys hrev))

theorem pyInt_intToStr (i : Int) : pyInt (intToStr i) = some i := by
  have hstrip : pyStrip (intToStr i) = intToStr i :=
    pyStrip_of_nonspace _ (intToStr_ne_nil i)
      (fun c hc => (intToStr_chars i c hc).1)
  unfold pyInt
  rw [hstrip]
  unfold intToStr
  by_cases hneg : i < 0
  · rw [if_pos hneg]
    have hall : (natDigits (-i).toNat).all isDigitCh = true :=
      List.all_eq_true.mpr (fun c hc => by
        obtain ⟨d, hd, rfl⟩ := natDigits_mem _ c hc
        exact (digitChar_facts d hd).2.1)
    have hne := natDigits_ne_nil (-i).toNat
    simp [hne, hall, digitsToNat_natDigits]
    omega
  · rw [if_neg hneg]
    cases hA : natDigits i.toNat with
    | nil => exact absurd hA (natDigits_ne_nil _)
    | cons c ds =>
      have hcmem : c ∈ natDigits i.toNat := by rw [hA]; simp
      obtain ⟨d, hd, rfl⟩ := natDigits_mem _ _ hcmem
      obtain ⟨_, hdig, _, _, _, hminus, hplus⟩ := digitChar_facts d hd
      have hall : (Char.ofNat (48 + d) :: ds).all isDigitCh = true := by
        rw [← hA]
        refine List.all_eq_true.mpr ?_
        intro x hx
        obtain ⟨d2, hd2, rfl⟩ := natDigits_mem _ _ hx
        exact (digitChar_facts d2 hd2).2.1
      simp [hminus, hplus, hall]
      rw [← hA, digitsToNat_natDigits]
      omega

/-! ## One-line step of the header parsing loop -/

theorem parseLoop_step (fuel : Nat) (L : PyStr) (rest data : List Nat)
    (v : Option Int) (props : List (PyStr × PyStr)) (inv : Bool)
    (lines : List PyStr)
    (hdata : data = L.map Char.toNat ++ 10 :: rest)
    (hok : ∀ c ∈ L, c.toNat < 128 ∧ c ≠ '\n' ∧ c ≠ '\r') :
    parseLoop (fuel + 1) data v props inv lines =
      (if pyStrip L = "end_header".toList then .ok ⟨v, props, lines ++ [L], rest⟩
      else
        match pySplit (pyStrip L) with
        | [] => parseLoop fuel rest v props inv (lines ++ [L])
        | p0 :: ps =>
          if p0 = "element".toList then
            match ps with
            | [en, cs] =>
              match pyInt cs with
              | none => .error .intParseError
              | some cnt =>
                if en = "vertex".toList then
                  parseLoop fuel rest (some cnt) props true (lines ++ [L])
                else parseLoop fuel rest v props false (lines ++ [L])
            | _ => .error .invalidElementLine
          else if p0 = "property".toList then
            if inv then
              match ps with
              | [pt, pn] => parseLoop fuel rest v (props ++ [(pt, pn)]) inv (lines ++ [L])
              | p1 :: _ :: _ :: _ :: _ =>
                if p1 = "list".toList then .error .listProperty
                else .error .invalidPropertyLine
              | _ => .error .invalidPropertyLine
            else parseLoop fuel rest v props inv (lines ++ [L])
          else parseLoop fuel rest v props inv (lines ++ [L])) := by
  have hnl : ∀ x ∈ L.map Char.toNat, x ≠ 10 := by
    intro x hx
    obtain ⟨c, hc, rfl⟩ := List.mem_map.mp hx
    intro hx10
    have h2 := Char.ofNat_toNat c
    rw [hx10] at h2
    have hcn : c = '\n' := by rw [← h2]
    exact (hok c hc).2.1 hcn
  have hascii : (L ++ ['\n']).all (fun c => c.toNat < 128) = true := by
    refine List.all_eq_true.mpr ?_
    intro c hc
    rcases List.mem_append.mp hc with h1 | h1
    · simpa using (hok c h1).1
    · simp only [List.mem_singleton] at h1
      subst h1
      decide
  have hdec : decodeAscii (L.map Char.toNat ++ [10]) = some (L ++ ['\n']) := by
    have hmap : L.map Char.toNat ++ [10] = (L ++ ['\n']).map Char.toNat := by simp
    rw [hmap, decodeAscii_encode _ hascii]
  have hrstrip : rstripCRLF (L ++ ['\n']) = L :=
    rstrip_append_nl L (fun c hc => ⟨(hok c hc).2.1, (hok c hc).2.2⟩)
  subst hdata
  cases L with
  | nil =>
    have hsplit : splitNLCons 10 rest = ([10], rest) :=
      splitNLCons_encode [] rest 10 rest (by simp) rfl
    simp only [List.map_nil, List.nil_append] at hdec hrstrip ⊢
    simp only [parseLoop, hsplit, hdec, hrstrip]
  | cons c0 L2 =>
    have hsplit : splitNLCons c0.toNat (L2.map Char.toNat ++ 10 :: rest) =
        ((c0 :: L2).map Char.toNat ++ [10], rest) :=
      splitNLCons_encode ((c0 :: L2).map Char.toNat) rest _ _ hnl (by simp)
    simp only [List.map_cons, List.cons_append] at hsplit hdec hrstrip ⊢
    simp only [parseLoop, hsplit, hdec, hrstrip]


theorem goodToken_chars (t : PyStr) (h : goodToken t = true) :
    t ≠ [] ∧ ∀ c ∈ t, isPySpace c = false ∧ c.toNat < 128 ∧ c ≠ '\n' ∧ c ≠ '\r' := by
  unfold goodToken at h
  simp only [Bool.and_eq_true] at h
  obtain ⟨h1, h2⟩ := h
  refine ⟨by simpa using h1, ?_⟩
  intro c hc
  have h3 := List.all_eq_true.mp h2 c hc
  have h4 : isPySpace c = false ∧ c.toNat < 128 := by
    simp only [Bool.and_eq_true] at h3
    exact ⟨by simpa using h3.1, by simpa using h3.2⟩
  refine ⟨h4.1, h4.2, ?_, ?_⟩
  · intro hcn
    rw [hcn] at h4
    exact absurd h4.1 (by decide)
  · intro hcr
    rw [hcr] at h4
    exact absurd h4.1 (by decide)

theorem parseLoop_end (fuel : Nat) (rest : List Nat) (v : Option Int)
    (props : List (PyStr × PyStr)) (inv : Bool) (lines : List PyStr) :
    parseLoop (fuel + 1) ("end_header".toList.map Char.toNat ++ 10 :: rest)
        v props inv lines =
      .ok ⟨v, props, lines ++ ["end_header".toList], rest⟩ := by
  rw [parseLoop_step fuel "end_header".toList rest _ v props inv lines rfl (by decide)]
  rw [if_pos (by decide)]

theorem litProp_chars :
    ∀ c ∈ "property ".toList, c.toNat < 128 ∧ c ≠ '\n' ∧ c ≠ '\r' := by decide

theorem parseLoop_prop (fuel : Nat) (t nm : PyStr) (rest : List Nat)
    (v : Option Int) (props : List (PyStr × PyStr)) (lines : List PyStr)
    (ht : goodToken t = true) (hnm : goodToken nm = true) :
    parseLoop (fuel + 1)
        (("property ".toList ++ t ++ ' ' :: nm).map Char.toNat ++ 10 :: rest)
        v props true lines =
      parseLoop fuel rest v (props ++ [(t, nm)]) true
        (lines ++ ["property ".toList ++ t ++ ' ' :: nm]) := by
  obtain ⟨htne, htc⟩ := goodToken_chars t ht
  obtain ⟨hnmne, hnmc⟩ := goodToken_chars nm hnm
  have hok : ∀ c ∈ "property ".toList ++ t ++ ' ' :: nm,
      c.toNat < 128 ∧ c ≠ '\n' ∧ c ≠ '\r' := by
    intro c hc
    rcases List.mem_append.mp hc with hc1 | hc1
    · rcases List.mem_append.mp hc1 with hc2 | hc2
      · exact litProp_chars c hc2
      · exact ⟨(htc c hc2).2.1, (htc c hc2).2.2.1, (htc c hc2).2.2.2⟩
    · rcases List.mem_cons.mp hc1 with rfl | hc2
      · exact ⟨by decide, by decide, by decide⟩
      · exact ⟨(hnmc c hc2).2.1, (hnmc c hc2).2.2.1, (hnmc c hc2).2.2.2⟩
  have hassoc : "property ".toList ++ t ++ ' ' :: nm =
      ("property ".toList ++ t ++ [' ']) ++ nm := by
    simp [List.append_assoc]
  have hstrip : pyStrip ("property ".toList ++ t ++ ' ' :: nm) =
      "property ".toList ++ t ++ ' ' :: nm := by
    have hL : "property ".toList ++ t ++ ' ' :: nm =
        'p' :: ("roperty ".toList ++ t ++ ' ' :: nm) := rfl
    rw [hL]
    apply pyStrip_eq_self
    · decide
    · intro y ys hrev
      rw [← hL] at hrev
      rw [hassoc] at hrev
      have hmem := last_of_append_token _ nm hnmne y ys hrev
      exact (hnmc y hmem).1
  have hL2 : "property ".toList ++ t ++ ' ' :: nm =
      "property".toList ++ ' ' :: (t ++ ' ' :: nm) := rfl
  have hsplit3 : pySplit (pyStrip ("property ".toList ++ t ++ ' ' :: nm)) =
      ["property".toList, t, nm] := by
    rw [hstrip, hL2]
    show pySplitAux ("property".toList ++ ' ' :: (t ++ ' ' :: nm)) [] = _
    rw [pySplit_sep "property".toList _ (by decide) (by decide)]
    rw [pySplit_sep t _ htne (fun c hc => (htc c hc).1)]
    rw [pySplit_single nm hnmne (fun c hc => (hnmc c hc).1)]
  rw [parseLoop_step fuel ("property ".toList ++ t ++ ' ' :: nm) rest _
    v props true lines rfl hok]
  rw [if_neg (by
    rw [hstrip]
    intro hcontra
    have : ('p' : Char) = 'e' := by
      have h2 := congrArg (fun l => List.headD l ' ') hcontra
      simpa using h2
    exact absurd this (by decide))]
  simp only [hsplit3]
  simp

theorem litElem_chars :
    ∀ c ∈ "element vertex ".toList, c.toNat < 128 ∧ c ≠ '\n' ∧ c ≠ '\r' := by decide

theorem parseLoop_elem (fuel : Nat) (n : Int) (rest : List Nat) (v : Option Int)
    (props : List (PyStr × PyStr)) (inv : Bool) (lines : List PyStr) :
    parseLoop (fuel + 1)
        (("element vertex ".toList ++ intToStr n).map Char.toNat ++ 10 :: rest)
        v props inv lines =
      parseLoop fuel rest (some n) props true
        (lines ++ ["element vertex ".toList ++ intToStr n]) := by
  have hic := intToStr_chars n
  have hine := intToStr_ne_nil n
  have hok : ∀ c ∈ "element vertex ".toList ++ intToStr n,
      c.toNat < 128 ∧ c ≠ '\n' ∧ c ≠ '\r' := by
    intro c hc
    rcases List.mem_append.mp hc with hc1 | hc1
    · exact litElem_chars c hc1
    · exact ⟨(hic c hc1).2.1, (hic c hc1).2.2.1, (hic c hc1).2.2.2⟩
  have hstrip : pyStrip ("element vertex ".toList ++ intToStr n) =
      "element vertex ".toList ++ intToStr n := by
    have hL : "element vertex ".toList ++ intToStr n =
        'e' :: ("lement vertex ".toList ++ intToStr n) := rfl
    rw [hL]
    apply pyStrip_eq_self
    · decide
    · intro y ys hrev
      rw [← hL] at hrev
      have hmem := last_of_append_token _ (intToStr n) hine y ys hrev
      exact (hic y hmem).1
  have hL2 : "element vertex ".toList ++ intToStr n =
      "element".toList ++ ' ' :: ("vertex".toList ++ ' ' :: intToStr n) := rfl
  have hsplit3 : pySplit (pyStrip ("element vertex ".toList ++ intToStr n)) =
      ["element".toList, "vertex".toList, intToStr n] := by
    rw [hstrip, hL2]
    show pySplitAux ("element".toList ++ ' ' :: ("vertex".toList ++ ' ' :: intToStr n)) [] = _
    rw [pySplit_sep "element".toList _ (by decide) (by decide)]
    rw [pySplit_sep "vertex".toList _ (by decide) (by decide)]
    rw [pySplit_single (intToStr n) hine (fun c hc => (hic c hc).1)]
  rw [parseLoop_step fuel ("element vertex ".toList ++ intToStr n) rest _
    v props inv lines rfl hok]
  rw [if_neg (by
    rw [hstrip]
    intro hcontra
    have h2 : ('l' : Char) = 'n' := by
      have h3 := congrArg (fun l => List.headD (List.tail l) ' ') hcontra
      simpa using h3
    exact absurd h2 (by decide))]
  simp only [hsplit3, pyInt_intToStr]
  simp

theorem litPropList_chars :
    ∀ c ∈ "property list ".toList, c.toNat < 128 ∧ c ≠ '\n' ∧ c ≠ '\r' := by decide

theorem parseLoop_listprop (fuel : Nat) (ct it nm : PyStr) (rest : List Nat)
    (v : Option Int) (props : List (PyStr × PyStr)) (lines : List PyStr)
    (hct : goodToken ct = true) (hit : goodToken it = true)
    (hnm : goodToken nm = true) :
    parseLoop (fuel + 1)
        (("property list ".toList ++ ct ++ ' ' :: it ++ ' ' :: nm).map Char.toNat
          ++ 10 :: rest)
        v props true lines = .error .listProperty := by
  obtain ⟨hctne, hctc⟩ := goodToken_chars ct hct
  obtain ⟨hitne, hitc⟩ := goodToken_chars it hit
  obtain ⟨hnmne, hnmc⟩ := goodToken_chars nm hnm
  have hok : ∀ c ∈ "property list ".toList ++ ct ++ ' ' :: it ++ ' ' :: nm,
      c.toNat < 128 ∧ c ≠ '\n' ∧ c ≠ '\r' := by
    intro c hc
    rcases List.mem_append.mp hc with hc1 | hc1
    · rcases List.mem_append.mp hc1 with hc2 | hc2
      · rcases List.mem_append.mp hc2 with hc3 | hc3
        · exact litPropList_chars c hc3
        · exact ⟨(hctc c hc3).2.1, (hctc c hc3).2.2.1, (hctc c hc3).2.2.2⟩
      · rcases List.mem_cons.mp hc2 with rfl | hc3
        · exact ⟨by decide, by decide, by decide⟩
        · exact ⟨(hitc c hc3).2.1, (hitc c hc3).2.2.1, (hitc c hc3).2.2.2⟩
    · rcases List.mem_cons.mp hc1 with rfl | hc3
      · exact ⟨by decide, by decide, by decide⟩
      · exact ⟨(hnmc c hc3).2.1, (hnmc c hc3).2.2.1, (hnmc c hc3).2.2.2⟩
  have hassoc : "property list ".toList ++ ct ++ ' ' :: it ++ ' ' :: nm =
      ("property list ".toList ++ ct ++ ' ' :: it ++ [' ']) ++ nm := by
    simp [List.append_assoc]
  have hstrip : pyStrip ("property list ".toList ++ ct ++ ' ' :: it ++ ' ' :: nm) =
      "property list ".toList ++ ct ++ ' ' :: it ++ ' ' :: nm := by
    have hL : "property list ".toList ++ ct ++ ' ' :: it ++ ' ' :: nm =
        'p' :: ("roperty list ".toList ++ ct ++ ' ' :: it ++ ' ' :: nm) := rfl
    rw [hL]
    apply pyStrip_eq_self
    · decide
    · intro y ys hrev
      rw [← hL, hassoc] at hrev
      have hmem := last_of_append_token _ nm hnmne y ys hrev
      exact (hnmc y hmem).1
  have hL2 : "property list ".toList ++ ct ++ ' ' :: it ++ ' ' :: nm =
      "property".toList ++ ' ' :: ("list".toList ++ ' ' :: (ct ++ ' ' :: (it ++ ' ' :: nm))) := by
    simp [List.append_assoc]
  have hsplit5 : pySplit (pyStrip ("property list ".toList ++ ct ++ ' ' :: it ++ ' ' :: nm)) =
      ["property".toList, "list".toList, ct, it, nm] := by
    rw [hstrip, hL2]
    show pySplitAux ("property".toList ++ ' ' :: ("list".toList ++ ' ' :: (ct ++ ' ' :: (it ++ ' ' :: nm)))) [] = _
    rw [pySplit_sep "property".toList _ (by decide) (by decide)]
    rw [pySplit_sep "list".toList _ (by decide) (by decide)]
    rw [pySplit_sep ct _ hctne (fun c hc => (hctc c hc).1)]
    rw [pySplit_sep it _ hitne (fun c hc => (hitc c hc).1)]
    rw [pySplit_single nm hnmne (fun c hc => (hnmc c hc).1)]
  rw [parseLoop_step fuel ("property list ".toList ++ ct ++ ' ' :: it ++ ' ' :: nm)
    rest _ v props true lines rfl hok]
  rw [if_neg (by
    rw [hstrip]
    intro hcontra
    have h2 : ('p' : Char) = 'e' := by
      have h3 := congrArg (fun l => List.headD l ' ') hcontra
      simpa using h3
    exact absurd h2 (by decide))]
  simp only [hsplit5]
  simp

theorem map_toNat_ne_10 (L : PyStr) (h : ∀ c ∈ L, c ≠ '\n') :
    ∀ x ∈ L.map Char.toNat, x ≠ 10 := by
  intro x hx
  obtain ⟨c, hc, rfl⟩ := List.mem_map.mp hx
  intro hx10
  have h2 := Char.ofNat_toNat c
  rw [hx10] at h2
  exact h c hc (by rw [← h2])

theorem decodeAscii_line (L : PyStr) (h : ∀ c ∈ L, c.toNat < 128) :
    decodeAscii (L.map Char.toNat ++ [10]) = some (L ++ ['\n']) := by
  have hmap : L.map Char.toNat ++ [10] = (L ++ ['\n']).map Char.toNat := by simp
  rw [hmap]
  apply decodeAscii_encode
  refine List.all_eq_true.mpr ?_
  intro c hc
  rcases List.mem_append.mp hc with h1 | h1
  · simpa using h c h1
  · simp only [List.mem_singleton] at h1
    subst h1
    decide

theorem pyStrip_append_nl (x : Char) (xs : PyStr) (hx : isPySpace x = false)
    (hlast : ∀ y ys, (x :: xs).reverse = y :: ys → isPySpace y = false) :
    pyStrip ((x :: xs) ++ ['\n']) = x :: xs := by
  unfold pyStrip
  rw [List.cons_append, List.dropWhile_cons, if_neg (by simp [hx])]
  rw [show x :: (xs ++ ['\n']) = (x :: xs) ++ ['\n'] from rfl]
  rw [List.reverse_append]
  rw [show (['\n'] : PyStr).reverse = ['\n'] from rfl]
  rw [List.singleton_append]
  rw [List.dropWhile_cons, if_pos (by decide)]
  cases hrev : (x :: xs).reverse with
  | nil => simp at hrev
  | cons y ys =>
    have hy := hlast y ys hrev
    rw [List.dropWhile_cons, if_neg (by simp [hy])]
    rw [← hrev, List.reverse_reverse]

theorem litFmt_chars :
    ∀ c ∈ "format ".toList, c.toNat < 128 ∧ c ≠ '\n' ∧ c ≠ '\r' := by decide

theorem parse_ply_header_prelude (f vr : PyStr) (body : List Nat)
    (hf : goodToken f = true) (hv : goodToken vr = true) :
    parse_ply_header ("ply".toList.map Char.toNat ++ 10 ::
        (("format ".toList ++ f ++ ' ' :: vr).map Char.toNat ++ 10 :: body)) =
      (match parseLoop (body.length + 1) body none [] false
          ["ply".toList, "format ".toList ++ f ++ ' ' :: vr] with
       | .error e => .error e
       | .ok out =>
         match out.vcount with
         | none => .error .noVertexElement
         | some n =>
           .ok ⟨f, vr, n, out.props, out.lines,
             ("ply".toList.map Char.toNat ++ 10 ::
               (("format ".toList ++ f ++ ' ' :: vr).map Char.toNat ++ 10 :: body)).length
               - out.rest.length⟩) := by
  obtain ⟨hfne, hfc⟩ := goodToken_chars f hf
  obtain ⟨hvne, hvc⟩ := goodToken_chars vr hv
  have hfmtc : ∀ c ∈ "format ".toList ++ f ++ ' ' :: vr,
      c.toNat < 128 ∧ c ≠ '\n' ∧ c ≠ '\r' := by
    intro c hc
    rcases List.mem_append.mp hc with hc1 | hc1
    · rcases List.mem_append.mp hc1 with hc2 | hc2
      · exact litFmt_chars c hc2
      · exact ⟨(hfc c hc2).2.1, (hfc c hc2).2.2.1, (hfc c hc2).2.2.2⟩
    · rcases List.mem_cons.mp hc1 with rfl | hc2
      · exact ⟨by decide, by decide, by decide⟩
      · exact ⟨(hvc c hc2).2.1, (hvc c hc2).2.2.1, (hvc c hc2).2.2.2⟩
  have hassoc : "format ".toList ++ f ++ ' ' :: vr =
      ("format ".toList ++ f ++ [' ']) ++ vr := by
    simp [List.append_assoc]
  have hcons : ("format ".toList ++ f ++ ' ' :: vr).map Char.toNat ++ 10 :: body =
      102 :: (("ormat ".toList ++ f ++ ' ' :: vr).map Char.toNat ++ 10 :: body) := rfl
  have hs2 : splitNLCons 102
      (("ormat ".toList ++ f ++ ' ' :: vr).map Char.toNat ++ 10 :: body) =
      (("format ".toList ++ f ++ ' ' :: vr).map Char.toNat ++ [10], body) :=
    splitNLCons_encode (("format ".toList ++ f ++ ' ' :: vr).map Char.toNat) body _ _
      (map_toNat_ne_10 _ (fun c hc => (hfmtc c hc).2.1)) rfl
  have hd2 : decodeAscii (("format ".toList ++ f ++ ' ' :: vr).map Char.toNat ++ [10]) =
      some (("format ".toList ++ f ++ ' ' :: vr) ++ ['\n']) :=
    decodeAscii_line _ (fun c hc => (hfmtc c hc).1)
  have hstrip2 : pyStrip (("format ".toList ++ f ++ ' ' :: vr) ++ ['\n']) =
      "format ".toList ++ f ++ ' ' :: vr := by
    have hL : "format ".toList ++ f ++ ' ' :: vr =
        'f' :: ("ormat ".toList ++ f ++ ' ' :: vr) := rfl
    rw [hL]
    apply pyStrip_append_nl
    · decide
    · intro y ys hrev
      rw [← hL, hassoc] at hrev
      have hmem := last_of_append_token _ vr hvne y ys hrev
      exact (hvc y hmem).1
  have hr2 : rstripCRLF (("format ".toList ++ f ++ ' ' :: vr) ++ ['\n']) =
      "format ".toList ++ f ++ ' ' :: vr :=
    rstrip_append_nl _ (fun c hc => ⟨(hfmtc c hc).2.1, (hfmtc c hc).2.2⟩)
  have hL2 : "format ".toList ++ f ++ ' ' :: vr =
      "format".toList ++ ' ' :: (f ++ ' ' :: vr) := rfl
  have hsplit3 : pySplit (pyStrip (("format ".toList ++ f ++ ' ' :: vr) ++ ['\n'])) =
      ["format".toList, f, vr] := by
    rw [hstrip2, hL2]
    show pySplitAux ("format".toList ++ ' ' :: (f ++ ' ' :: vr)) [] = _
    rw [pySplit_sep "format".toList _ (by decide) (by decide)]
    rw [pySplit_sep f _ hfne (fun c hc => (hfc c hc).1)]
    rw [pySplit_single vr hvne (fun c hc => (hvc c hc).1)]
  show parse_ply_header (112 :: (108 :: 121 :: 10 ::
    (("format ".toList ++ f ++ ' ' :: vr).map Char.toNat ++ 10 :: body))) = _
  have hs1 : splitNLCons 112 (108 :: 121 :: 10 ::
      (("format ".toList ++ f ++ ' ' :: vr).map Char.toNat ++ 10 :: body)) =
      ([112, 108, 121, 10],
        ("format ".toList ++ f ++ ' ' :: vr).map Char.toNat ++ 10 :: body) := rfl
  simp only [parse_ply_header, hs1]
  rw [show decodeAscii [112, 108, 121, 10] = some ['p', 'l', 'y', '\n'] from rfl]
  simp only
  rw [if_neg (by decide)]
  rw [hcons]
  simp only [hs2, hd2, hsplit3]
  rw [if_neg (by decide)]
  rw [hr2]
  simp only [List.length_cons, List.length_append, List.length_map]
  rw [show rstripCRLF ['p', 'l', 'y', '\n'] = ['p', 'l', 'y'] from rfl]
  rw [show ("ply".toList : PyStr) = ['p', 'l', 'y'] from rfl]
  simp only [show ("ormat ".toList.length : Nat) = 6 from rfl,
    show (List.length ['p', 'l', 'y'] : Nat) = 3 from rfl]
  have harith : (6 + List.length f + (List.length vr + 1) + (body.length + 1)
        + 1 + 1 + 1 + 1 + 1 : Nat) =
      3 + (6 + List.length f + (List.length vr + 1) + (body.length + 1) + 1 + 1) := by
    omega
  simp only [harith]

/-! ## Claim C7: list properties inside the vertex element fail at parse time -/

theorem parseLoop_props_then_list : ∀ (pre : List (PyStr × PyStr)) (fuel : Nat)
    (v : Option Int) (props : List (PyStr × PyStr)) (lines : List PyStr)
    (ct it nm : PyStr) (tail : List Nat),
    (∀ p ∈ pre, goodToken p.1 = true ∧ goodToken p.2 = true) →
    goodToken ct = true → goodToken it = true → goodToken nm = true →
    pre.length < fuel →
    parseLoop fuel
      (pre.foldr (fun p acc =>
          ("property ".toList ++ p.1 ++ ' ' :: p.2).map Char.toNat ++ 10 :: acc)
        (("property list ".toList ++ ct ++ ' ' :: it ++ ' ' :: nm).map Char.toNat
          ++ 10 :: tail))
      v props true lines = .error .listProperty := by
  intro pre
  induction pre with
  | nil =>
    intro fuel v props lines ct it nm tail _ hct hit hnm hfuel
    cases fuel with
    | zero => omega
    | succ k =>
      simp only [List.foldr_nil]
      exact parseLoop_listprop k ct it nm tail v props lines hct hit hnm
  | cons p pre ih =>
    intro fuel v props lines ct it nm tail hpre hct hit hnm hfuel
    cases fuel with
    | zero => simp at hfuel
    | succ k =>
      simp only [List.foldr_cons]
      obtain ⟨hp1, hp2⟩ := hpre p (by simp)
      rw [parseLoop_prop k p.1 p.2 _ v props lines hp1 hp2]
      exact ih k v (props ++ [(p.1, p.2)]) _ ct it nm tail
        (fun q hq => hpre q (by simp [hq])) hct hit hnm (by simp at hfuel ⊢; omega)

/-- The encoded property lines of a schema contribute at least one byte line
each, so the folded byte stream is at least as long as the schema. -/
theorem foldr_proplines_length (pre : List (PyStr × PyStr)) (base : List Nat) :
    pre.length ≤ (pre.foldr (fun p acc =>
      ("property ".toList ++ p.1 ++ ' ' :: p.2).map Char.toNat ++ 10 :: acc)
      base).length := by
  induction pre with
  | nil => simp
  | cons p pre ih =>
    simp only [List.foldr_cons, List.length_cons, List.length_append]
    omega

/-- Claim C7: for every header that declares a list property inside the
`vertex` element — a format line with arbitrary tokens, a vertex element of
arbitrary count, any number of preceding scalar properties, then
`property list <count-type> <item-type> <name>` — `parse_ply_header` fails
with the list-property error at parse time, whatever bytes follow the
offending line (so before any body byte is read); the property is never
silently dropped. -/
theorem c7_list_property_rejected (f vr : PyStr) (n : Int)
    (pre : List (PyStr × PyStr)) (ct it nm : PyStr) (tail : List Nat)
    (hf : goodToken f = true) (hv : goodToken vr = true)
    (hpre : ∀ p ∈ pre, goodToken p.1 = true ∧ goodToken p.2 = true)
    (hct : goodToken ct = true) (hit : goodToken it = true)
    (hnm : goodToken nm = true) :
    parse_ply_header ("ply".toList.map Char.toNat ++ 10 ::
      (("format ".toList ++ f ++ ' ' :: vr).map Char.toNat ++ 10 ::
        (("element vertex ".toList ++ intToStr n).map Char.toNat ++ 10 ::
          pre.foldr (fun p acc =>
              ("property ".toList ++ p.1 ++ ' ' :: p.2).map Char.toNat ++ 10 :: acc)
            (("property list ".toList ++ ct ++ ' ' :: it ++ ' ' :: nm).map Char.toNat
              ++ 10 :: tail)))) = .error .listProperty := by
  rw [parse_ply_header_prelude f vr _ hf hv]
  have hlen := foldr_proplines_length pre
    (("property list ".toList ++ ct ++ ' ' :: it ++ ' ' :: nm).map Char.toNat
      ++ 10 :: tail)
  rw [parseLoop_elem _ n _ none [] false _]
  rw [parseLoop_props_then_list pre _ (some n) [] _ ct it nm tail hpre hct hit hnm
    (by
      rw [List.length_append, List.length_cons]
      omega)]

/-- Witness for C7: the concrete header `ply` / `format binary_little_endian 1.0`
/ `element vertex 3` / `property float x` / `property list uchar int
vertex_indices` with an empty remainder is rejected with the list-property
error at header-parse time. -/
theorem c7_witness :
    (goodToken "binary_little_endian".toList = true ∧
     goodToken "1.0".toList = true ∧
     goodToken "float".toList = true ∧ goodToken "x".toList = true ∧
     goodToken "uchar".toList = true ∧ goodToken "int".toList = true ∧
     goodToken "vertex_indices".toList = true) ∧
    parse_ply_header ("ply".toList.map Char.toNat ++ 10 ::
      (("format ".toList ++ "binary_little_endian".toList ++ ' ' :: "1.0".toList).map
          Char.toNat ++ 10 ::
        (("element vertex ".toList ++ intToStr 3).map Char.toNat ++ 10 ::
          [("float".toList, "x".toList)].foldr (fun p acc =>
              ("property ".toList ++ p.1 ++ ' ' :: p.2).map Char.toNat ++ 10 :: acc)
            (("property list ".toList ++ "uchar".toList ++ ' ' :: "int".toList ++
                ' ' :: "vertex_indices".toList).map Char.toNat
              ++ 10 :: [])))) = .error .listProperty := by
  refine ⟨⟨by decide, by decide, by decide, by decide, by decide, by decide, by decide⟩, ?_⟩
  exact c7_list_property_rejected "binary_little_endian".toList "1.0".toList 3
    [("float".toList, "x".toList)] "uchar".toList "int".toList "vertex_indices".toList []
    (by decide) (by decide)
    (by
      intro p hp
      rw [List.mem_singleton] at hp
      subst hp
      exact ⟨by decide, by decide⟩)
    (by decide) (by decide) (by decide)

/-! ## Claim C10: the reader reads only the declared byte range -/

/-- `structFor` success determines the stride: the sum of the struct widths
equals `strideOf` of the property list. -/
theorem structFor_width_sum (props : List (PyStr × PyStr)) (chars : List SChar)
    (hs : structFor props = .ok chars) :
    (chars.map width).sum = strideOf props := by
  induction props generalizing chars with
  | nil =>
    cases hs
    rfl
  | cons p rest ih =>
    obtain ⟨t, nm⟩ := p
    cases ht : _PLY_TYPE_TO_STRUCT t with
    | none => simp [structFor, ht] at hs
    | some c =>
      cases hr : structFor rest with
      | error e => simp [structFor, ht, hr] at hs
      | ok cs =>
        simp only [structFor, ht, hr] at hs
        cases hs
        simp only [List.map_cons, List.sum_cons, strideOf, Option.map_some]
        rw [ih cs hr]
        simp [strideOf, ht]

/-- The record loop reads exactly `k * stride` bytes of its data argument:
two data streams agreeing on that prefix produce the same outcome. -/
theorem readRecords_take_eq (props : List (PyStr × PyStr)) (chars : List SChar)
    (e : Endian) (stride : Nat) (count : Int) (k : Nat) :
    ∀ (i : Nat) (d1 d2 : List Nat) (tbl : Table),
      d1.take (k * stride) = d2.take (k * stride) →
      readRecords props chars e stride count k i d1 tbl =
        readRecords props chars e stride count k i d2 tbl := by
  induction k with
  | zero =>
    intro i d1 d2 tbl h
    rfl
  | succ k ih =>
    intro i d1 d2 tbl h
    have hstep : stride ≤ (k + 1) * stride := by
      rw [Nat.succ_mul]
      omega
    have hchunk : d1.take stride = d2.take stride := by
      have h1 : (d1.take ((k + 1) * stride)).take stride = d1.take stride := by
        rw [List.take_take, Nat.min_eq_left hstep]
      have h2 : (d2.take ((k + 1) * stride)).take stride = d2.take stride := by
        rw [List.take_take, Nat.min_eq_left hstep]
      rw [← h1, ← h2, h]
    have harith : (k + 1) * stride - stride = k * stride := by
      rw [Nat.succ_mul]
      omega
    have hdrop : (d1.drop stride).take (k * stride)
        = (d2.drop stride).take (k * stride) := by
      rw [← harith, ← List.drop_take, ← List.drop_take, h]
    simp only [readRecords, hchunk]
    split
    · exact ih (i + 1) _ _ _ hdrop
    · rfl

/-- Claim C10: the table returned by the binary reader depends only on the
parsed header and on the `vertex_count * stride` bytes starting at
`data_start_offset`: two files identical on that byte range (read under the
same header) give identical results; in particular no body byte of an element
declared before `vertex` is skipped — records are taken to begin immediately
at `data_start_offset`. -/
theorem c10_read_depends_on_range (f1 f2 : List Nat) (h : PlyHeader)
    (hrange : (f1.drop h.data_start_offset).take
        (h.vertex_count.toNat * strideOf h.vertex_properties)
      = (f2.drop h.data_start_offset).take
        (h.vertex_count.toNat * strideOf h.vertex_properties)) :
    read_vertex_table_binary f1 h = read_vertex_table_binary f2 h := by
  unfold read_vertex_table_binary
  split
  · rfl
  next hfmt =>
    split
    all_goals
      split
      next er heq => rfl
      next chars hs =>
        split
        next hneg => rfl
        next hneg =>
          have hw := structFor_width_sum h.vertex_properties chars hs
          rw [← hw] at hrange
          exact readRecords_take_eq h.vertex_properties chars _ _ _ _ 0 _ _ _ hrange

/-- Witness for C10: two four-byte files that agree only on the one-byte
vertex range at offset 2 (one `uchar x` record) read to the same table. -/
theorem c10_witness :
    ((([9, 9, 7, 50] : List Nat).drop 2).take
        ((1 : Int).toNat * strideOf [("uchar".toList, "x".toList)])
      = (([1, 2, 7, 99] : List Nat).drop 2).take
        ((1 : Int).toNat * strideOf [("uchar".toList, "x".toList)])) ∧
    read_vertex_table_binary [9, 9, 7, 50]
        ⟨"binary_little_endian".toList, "1.0".toList, 1,
          [("uchar".toList, "x".toList)], [], 2⟩
      = read_vertex_table_binary [1, 2, 7, 99]
        ⟨"binary_little_endian".toList, "1.0".toList, 1,
          [("uchar".toList, "x".toList)], [], 2⟩ :=
  ⟨by decide, c10_read_depends_on_range _ _ _ (by decide)⟩

/-! ## Claim C3: the output header is regenerated, count from the source -/

/-- Shape of a successful (or body-failing-after-header) write: once the
struct builds, validation passes and the header encodes, the destination
holds the regenerated header bytes followed by the streamed records. -/
theorem write_ok_shape (n : Int) (schema : List (PyStr × PyStr)) (cols : Table)
    (hok : (write_ply_binary_vertex_only n schema cols).error = none) :
    ∃ chars hb, structFor schema = .ok chars ∧
      asciiEncode (joinNL (headerLinesFor n schema)) = some hb ∧
      (write_ply_binary_vertex_only n schema cols).written
        = hb ++ (writeRows (schema.zip chars) cols n.toNat 0).1 := by
  unfold write_ply_binary_vertex_only at hok ⊢
  cases hc : structFor schema with
  | error e =>
    simp only [hc] at hok
    simp at hok
  | ok chars =>
    simp only [hc] at hok ⊢
    cases hv : validateCols schema cols n with
    | some e =>
      simp only [hv] at hok
      simp at hok
    | none =>
      simp only [hv] at hok ⊢
      cases ha : asciiEncode (joinNL (headerLinesFor n schema)) with
      | none =>
        simp only [ha] at hok
        simp at hok
      | some hb =>
        simp only [ha] at hok ⊢
        exact ⟨chars, hb, rfl, rfl, rfl⟩

/-- Claim C3: on every successful conversion the output file is the header
regenerated from the reference schema — the fixed `ply` magic, a
`format binary_little_endian 1.0` line whatever either input's format, one
`element vertex` line carrying the SOURCE vertex count (never the
reference's), one property line per reference-schema entry in schema order,
`end_header` — followed by the little-endian record stream of
`source-count` rows. -/
theorem c3_output_header_regenerated (teaser train : List Nat)
    (hok : (convert teaser train).error = none) :
    ∃ th rh cols chars hb,
      parse_ply_header teaser = .ok th ∧
      parse_ply_header train = .ok rh ∧
      structFor rh.vertex_properties = .ok chars ∧
      asciiEncode (joinNL
        (["ply".toList, "format binary_little_endian 1.0".toList,
          "element vertex ".toList ++ intToStr th.vertex_count]
         ++ rh.vertex_properties.map
             (fun p => "property ".toList ++ p.1 ++ ' ' :: p.2)
         ++ ["end_header".toList])) = some hb ∧
      (convert teaser train).written
        = hb ++ (writeRows (rh.vertex_properties.zip chars) cols
            th.vertex_count.toNat 0).1 := by
  cases hte : parse_ply_header teaser with
  | error e =>
    simp only [convert, hte] at hok
    simp at hok
  | ok th =>
    cases htr : parse_ply_header train with
    | error e =>
      simp only [convert, hte, htr] at hok
      simp at hok
    | ok rh =>
      cases hrd : read_vertex_table_binary teaser th with
      | error e =>
        simp only [convert, hte, htr, hrd] at hok
        simp at hok
      | ok tcols =>
        cases hrc : reconcile tcols rh.vertex_properties th.vertex_count with
        | error e =>
          simp only [convert, hte, htr, hrd,
            build_target_schema_from_train_header, hrc] at hok
          simp at hok
        | ok out0 =>
          have hconv : convert teaser train
              = write_ply_binary_vertex_only th.vertex_count rh.vertex_properties
                  (fillZeroCols out0 tcols) := by
            simp only [convert, hte, htr, hrd, hrc,
              build_target_schema_from_train_header]
          rw [hconv] at hok ⊢
          obtain ⟨chars, hb, hc, ha, hw⟩ :=
            write_ok_shape th.vertex_count rh.vertex_properties
              (fillZeroCols out0 tcols) hok
          have hl : headerLinesFor th.vertex_count rh.vertex_properties
              = ["ply".toList, "format binary_little_endian 1.0".toList,
                  "element vertex ".toList ++ intToStr th.vertex_count]
                ++ rh.vertex_properties.map
                    (fun p => "property ".toList ++ p.1 ++ ' ' :: p.2)
                ++ ["end_header".toList] := rfl
          rw [hl] at ha
          exact ⟨th, rh, fillZeroCols out0 tcols, chars, hb, rfl, rfl, hc, ha, hw⟩

/-- Witness for C3: a one-vertex `float x` source and a reference declaring
seven vertices of the same schema convert successfully; the claim theorem
applies, and the regenerated header carries the source count `1`. -/
theorem c3_witness :
    (convert
        ("ply\nformat binary_little_endian 1.0\nelement vertex 1\nproperty float x\nend_header\n".toList.map
            Char.toNat ++ [0, 0, 128, 63])
        ("ply\nformat binary_big_endian 1.0\nelement vertex 7\nproperty float x\nend_header\n".toList.map
            Char.toNat)).error = none ∧
    (∃ th rh cols chars hb,
      parse_ply_header
          ("ply\nformat binary_little_endian 1.0\nelement vertex 1\nproperty float x\nend_header\n".toList.map
              Char.toNat ++ [0, 0, 128, 63]) = .ok th ∧
      parse_ply_header
          ("ply\nformat binary_big_endian 1.0\nelement vertex 7\nproperty float x\nend_header\n".toList.map
              Char.toNat) = .ok rh ∧
      structFor rh.vertex_properties = .ok chars ∧
      asciiEncode (joinNL
        (["ply".toList, "format binary_little_endian 1.0".toList,
          "element vertex ".toList ++ intToStr th.vertex_count]
         ++ rh.vertex_properties.map
             (fun p => "property ".toList ++ p.1 ++ ' ' :: p.2)
         ++ ["end_header".toList])) = some hb ∧
      (convert
          ("ply\nformat binary_little_endian 1.0\nelement vertex 1\nproperty float x\nend_header\n".toList.map
              Char.toNat ++ [0, 0, 128, 63])
          ("ply\nformat binary_big_endian 1.0\nelement vertex 7\nproperty float x\nend_header\n".toList.map
              Char.toNat)).written
        = hb ++ (writeRows (rh.vertex_properties.zip chars) cols
            th.vertex_count.toNat 0).1) :=
  ⟨by rfl, c3_output_header_regenerated _ _ (by rfl)⟩

/-! ## General header parsing: scalar property lines then end_header -/

theorem parseLoop_props_then_end : ∀ (pre : List (PyStr × PyStr)) (fuel : Nat)
    (v : Option Int) (props : List (PyStr × PyStr)) (lines : List PyStr)
    (tail : List Nat),
    (∀ p ∈ pre, goodToken p.1 = true ∧ goodToken p.2 = true) →
    pre.length < fuel →
    parseLoop fuel
      (pre.foldr (fun p acc =>
          ("property ".toList ++ p.1 ++ ' ' :: p.2).map Char.toNat ++ 10 :: acc)
        ("end_header".toList.map Char.toNat ++ 10 :: tail))
      v props true lines
      = .ok ⟨v, props ++ pre,
          lines ++ pre.map (fun p => "property ".toList ++ p.1 ++ ' ' :: p.2)
            ++ ["end_header".toList], tail⟩ := by
  intro pre
  induction pre with
  | nil =>
    intro fuel v props lines tail _ hfuel
    cases fuel with
    | zero => omega
    | succ k =>
      simp only [List.foldr_nil]
      rw [parseLoop_end k tail v props true lines]
      simp
  | cons p pre ih =>
    intro fuel v props lines tail hpre hfuel
    cases fuel with
    | zero => simp at hfuel
    | succ k =>
      simp only [List.foldr_cons]
      obtain ⟨hp1, hp2⟩ := hpre p (by simp)
      rw [parseLoop_prop k p.1 p.2 _ v props lines hp1 hp2]
      rw [ih k v (props ++ [(p.1, p.2)]) _ tail
        (fun q hq => hpre q (by simp [hq])) (by simp at hfuel ⊢; omega)]
      simp

/-- Parsing a well-formed header made of the magic line, a format line, one
`element vertex` line, any scalar property lines and `end_header`: the parse
succeeds and returns the declared tokens verbatim — property names are NOT
checked for duplicates. -/
theorem parse_ply_header_scalars (f vr : PyStr) (n : Int)
    (props : List (PyStr × PyStr)) (tail : List Nat)
    (hf : goodToken f = true) (hv : goodToken vr = true)
    (hprops : ∀ p ∈ props, goodToken p.1 = true ∧ goodToken p.2 = true) :
    parse_ply_header ("ply".toList.map Char.toNat ++ 10 ::
        (("format ".toList ++ f ++ ' ' :: vr).map Char.toNat ++ 10 ::
          (("element vertex ".toList ++ intToStr n).map Char.toNat ++ 10 ::
            props.foldr (fun p acc =>
                ("property ".toList ++ p.1 ++ ' ' :: p.2).map Char.toNat ++ 10 :: acc)
              ("end_header".toList.map Char.toNat ++ 10 :: tail))))
      = .ok ⟨f, vr, n, props,
          ["ply".toList, "format ".toList ++ f ++ ' ' :: vr,
            "element vertex ".toList ++ intToStr n]
          ++ props.map (fun p => "property ".toList ++ p.1 ++ ' ' :: p.2)
          ++ ["end_header".toList],
          ("ply".toList.map Char.toNat ++ 10 ::
            (("format ".toList ++ f ++ ' ' :: vr).map Char.toNat ++ 10 ::
              (("element vertex ".toList ++ intToStr n).map Char.toNat ++ 10 ::
                props.foldr (fun p acc =>
                    ("property ".toList ++ p.1 ++ ' ' :: p.2).map Char.toNat
                      ++ 10 :: acc)
                  ("end_header".toList.map Char.toNat ++ 10 :: tail)))).length
            - tail.length⟩ := by
  rw [parse_ply_header_prelude f vr _ hf hv]
  have hlen := foldr_proplines_length props
    ("end_header".toList.map Char.toNat ++ 10 :: tail)
  rw [parseLoop_elem _ n _ none [] false _]
  rw [parseLoop_props_then_end props _ (some n) [] _ tail hprops
    (by rw [List.length_append, List.length_cons]; omega)]
  simp

/-! ## The reader as a function: dict evolution of the record loop -/

theorem dedupFirst_nodup : ∀ (L : List PyStr), (dedupFirst L).Nodup := by
  intro L
  induction L with
  | nil => simp [dedupFirst]
  | cons k L ih =>
    simp only [dedupFirst, List.nodup_cons]
    constructor
    · intro hmem
      have := List.of_mem_filter hmem
      simp at this
    · exact List.Nodup.filter _ ih

theorem dictSet_mapform_mem (K : List PyStr) (g : PyStr → List Nat) (k : PyStr)
    (v : List Nat) (hnd : K.Nodup) (hk : k ∈ K) :
    dictSet (K.map (fun x => (x, g x))) k v
      = K.map (fun x => (x, if x = k then v else g x)) := by
  induction K with
  | nil => simp at hk
  | cons x K ih =>
    rw [List.nodup_cons] at hnd
    by_cases hx : x = k
    · subst hx
      simp only [List.map_cons, dictSet, if_pos rfl, if_pos]
      congr 1
      apply List.map_congr_left
      intro y hy
      have hyk : y ≠ x := by
        intro hq
        exact hnd.1 (hq ▸ hy)
      simp [hyk]
    · have hkK : k ∈ K := by
        rcases List.mem_cons.mp hk with h | h
        · exact absurd h.symm hx
        · exact h
      simp only [List.map_cons, dictSet, if_neg hx,
        if_neg (fun h : k = x => hx h.symm), ih hnd.2 hkK]

theorem unpackRec_length (chars : List SChar) (e : Endian) (bs : List Nat) :
    (unpackRec chars e bs).length = chars.length := by
  induction chars generalizing bs with
  | nil => rfl
  | cons c cs ih => simp [unpackRec, ih]

theorem structFor_length (props : List (PyStr × PyStr)) (chars : List SChar)
    (hs : structFor props = .ok chars) : chars.length = props.length := by
  induction props generalizing chars with
  | nil =>
    cases hs
    rfl
  | cons p rest ih =>
    obtain ⟨t, nm⟩ := p
    cases ht : _PLY_TYPE_TO_STRUCT t with
    | none => simp [structFor, ht] at hs
    | some c =>
      cases hr : structFor rest with
      | error e => simp [structFor, ht, hr] at hs
      | ok cs =>
        simp only [structFor, ht, hr] at hs
        cases hs
        simp [ih cs hr]

/-- One record-assignment fold over a table in canonical map form: each key
keeps its place; a key assigned several times in the round ends at the value
of its last assignment. -/
theorem assignFold_mapform : ∀ (L : List ((PyStr × PyStr) × PyVal))
    (K : List PyStr) (g : PyStr → List Nat) (i : Nat),
    K.Nodup → (∀ q ∈ L, q.1.2 ∈ K) →
    L.foldl (fun t pv => dictSet t pv.1.2
        (((dictGet? t pv.1.2).getD []).set i (pyFloatToF32 pv.2)))
      (K.map (fun x => (x, g x)))
      = K.map (fun x => (x,
          match lastVal L x with
          | some v => (g x).set i (pyFloatToF32 v)
          | none => g x)) := by
  intro L
  induction L with
  | nil =>
    intro K g i hnd hmem
    simp [lastVal]
  | cons q L ih =>
    intro K g i hnd hmem
    have hqK : q.1.2 ∈ K := hmem q (by simp)
    simp only [List.foldl_cons]
    rw [dictGet?_mapform K g q.1.2]
    rw [if_pos hqK]
    simp only [Option.getD_some]
    rw [dictSet_mapform_mem K g q.1.2 _ hnd hqK]
    rw [ih K _ i hnd (fun r hr => hmem r (by simp [hr]))]
    apply List.map_congr_left
    intro x hx
    cases hL : lastVal L x with
    | some v =>
      simp only [lastVal, hL]
      by_cases hxq : x = q.1.2
      · simp [hxq, List.set_set]
      · simp [hxq]
    | none =>
      simp only [lastVal, hL]
      by_cases hxq : x = q.1.2
      · subst hxq
        simp
      · have hq2 : ¬ (q.1.2 = x) := fun h => hxq h.symm
        simp [hxq, hq2]

/-- `lastVal` over a zip of the schema with an unpacked record equals the
value at the LAST index of the same-named property (name-keyed storage makes
the last same-named property win). -/
theorem lastVal_zip : ∀ (props : List (PyStr × PyStr)) (vals : List PyVal)
    (x : PyStr), props.length ≤ vals.length →
    lastVal (props.zip vals) x
      = (lastIdxOf (props.map Prod.snd) x).map (fun j => vals.getD j (.int 0)) := by
  intro props
  induction props with
  | nil =>
    intro vals x _
    simp [lastVal, lastIdxOf]
  | cons p props ih =>
    intro vals x hlen
    cases vals with
    | nil => simp at hlen
    | cons v vals =>
      have hz : (p :: props).zip (v :: vals) = (p, v) :: props.zip vals := rfl
      rw [hz]
      simp only [List.map_cons, lastVal, lastIdxOf]
      rw [ih vals x (by simp at hlen; omega)]
      cases hLI : lastIdxOf (props.map Prod.snd) x with
      | some j => simp
      | none =>
        simp only [Option.map_none]
        by_cases hpx : p.2 = x
        · simp [hpx]
        · simp [hpx]

/-- The record-assignment round in canonical map form, keyed by
`lastIdxOf`. -/
theorem assignRecord_mapform (props : List (PyStr × PyStr)) (vals : List PyVal)
    (i : Nat) (K : List PyStr) (g : PyStr → List Nat) (hnd : K.Nodup)
    (hmem : ∀ nm ∈ props.map Prod.snd, nm ∈ K)
    (hlen : props.length ≤ vals.length) :
    assignRecord props vals i (K.map (fun x => (x, g x)))
      = K.map (fun x => (x,
          match lastIdxOf (props.map Prod.snd) x with
          | some m => (g x).set i (pyFloatToF32 (vals.getD m (.int 0)))
          | none => g x)) := by
  unfold assignRecord
  rw [assignFold_mapform (props.zip vals) K g i hnd ?hq]
  case hq =>
    intro q hq
    have hq1 := (List.of_mem_zip hq).1
    exact hmem q.1.2 (List.mem_map_of_mem Prod.snd hq1)
  apply List.map_congr_left
  intro x hx
  rw [lastVal_zip props vals x hlen]
  cases hLI : lastIdxOf (props.map Prod.snd) x with
  | some j => simp
  | none => simp

/-- Peeling one record off `recVals`: the head cell comes from the first
`stride` bytes, the tail from the remaining stream. -/
theorem recVals_succ (chars : List SChar) (e : Endian) (stride : Nat)
    (d : List Nat) (k m : Nat) :
    recVals chars e stride d (k + 1) m
      = pyFloatToF32 ((unpackRec chars e (d.take stride)).getD m (.int 0))
          :: recVals chars e stride (d.drop stride) k m := by
  unfold recVals
  rw [List.range_succ_eq_map]
  simp only [List.map_cons, List.map_map, Nat.zero_mul, List.drop_zero]
  congr 1
  apply List.map_congr_left
  intro j hj
  simp only [Function.comp]
  have hd : (d.drop stride).drop (j * stride) = d.drop ((j + 1) * stride) := by
    rw [List.drop_drop, Nat.succ_mul, Nat.add_comm]
  rw [hd]

/-- Setting a cell then taking one past it splits as take-append. -/
theorem take_set_succ (col : List Nat) (i v : Nat) (h : i < col.length) :
    (col.set i v).take (i + 1) = col.take i ++ [v] := by
  rw [List.set_eq_take_cons_drop v h, List.take_append_eq_append_take,
    List.take_take]
  have h1 : min (i + 1) i = i := by omega
  have h2 : i + 1 - (col.take i).length = 1 := by
    rw [List.length_take]
    omega
  rw [h1, h2]
  rfl

/-- Filling the whole remainder of a column cell by cell replaces it. -/
theorem setSeq_full : ∀ (vs col : List Nat) (i : Nat),
    col.length = i + vs.length → setSeq col i vs = col.take i ++ vs := by
  intro vs
  induction vs with
  | nil =>
    intro col i hlen
    simp only [setSeq, List.append_nil]
    rw [List.take_of_length_le (by simp at hlen ⊢; omega)]
  | cons v vs ih =>
    intro col i hlen
    simp only [setSeq]
    rw [ih (col.set i v) (i + 1) (by simp at hlen ⊢; omega)]
    have hi : i < col.length := by simp at hlen; omega
    rw [take_set_succ col i v hi]
    simp

/-- One successful pass of the record loop. -/
theorem readRecords_succ_ok (props : List (PyStr × PyStr)) (chars : List SChar)
    (e : Endian) (stride : Nat) (count : Int) (k i : Nat) (d : List Nat)
    (tbl : Table) (hc : (d.take stride).length = stride) :
    readRecords props chars e stride count (k + 1) i d tbl
      = readRecords props chars e stride count k (i + 1) (d.drop stride)
          (assignRecord props (unpackRec chars e (d.take stride)) i tbl) := by
  simp only [readRecords]
  rw [if_pos hc]

/-- The record loop on a map-form table with enough bytes: it succeeds and
each key's column receives, cell by cell from index `i`, the values its
last same-named property decodes from successive records. -/
theorem readRecords_spec (props : List (PyStr × PyStr)) (chars : List SChar)
    (e : Endian) (stride : Nat) (count : Int)
    (hlen : props.length ≤ chars.length) :
    ∀ (k i : Nat) (d : List Nat) (K : List PyStr) (g : PyStr → List Nat),
    K.Nodup → (∀ nm ∈ props.map Prod.snd, nm ∈ K) →
    k * stride ≤ d.length →
    readRecords props chars e stride count k i d (K.map (fun x => (x, g x)))
      = .ok (K.map (fun x => (x,
          match lastIdxOf (props.map Prod.snd) x with
          | some m => setSeq (g x) i (recVals chars e stride d k m)
          | none => g x))) := by
  intro k
  induction k with
  | zero =>
    intro i d K g hnd hmem havail
    simp only [readRecords]
    congr 1
    apply List.map_congr_left
    intro x hx
    cases hLI : lastIdxOf (props.map Prod.snd) x with
    | some m => simp [recVals, setSeq]
    | none => simp
  | succ k ih =>
    intro i d K g hnd hmem havail
    have hmul : (k + 1) * stride = k * stride + stride := Nat.succ_mul k stride
    have hchunk : (d.take stride).length = stride := by
      rw [List.length_take]
      omega
    rw [readRecords_succ_ok props chars e stride count k i d _ hchunk]
    rw [assignRecord_mapform props _ i K g hnd hmem
      (by rw [unpackRec_length]; exact hlen)]
    rw [ih (i + 1) (d.drop stride) K _ hnd hmem
      (by rw [List.length_drop]; omega)]
    congr 1
    apply List.map_congr_left
    intro x hx
    cases hLI : lastIdxOf (props.map Prod.snd) x with
    | some m =>
      simp only [hLI]
      rw [recVals_succ]
      rfl
    | none =>
      simp only [hLI]

/-- Master functional description of `read_vertex_table_binary`: under a
binary format, a registry-supported schema, a nonnegative count and enough
body bytes, the reader returns exactly `specTable` — first-occurrence key
order, each column decoded from the record slices of its LAST same-named
property. -/
theorem read_vertex_table_binary_ok (file : List Nat) (h : PlyHeader)
    (chars : List SChar)
    (hfmt : h.format = "binary_little_endian".toList ∨
      h.format = "binary_big_endian".toList)
    (hs : structFor h.vertex_properties = .ok chars)
    (hn : 0 ≤ h.vertex_count)
    (havail : h.vertex_count.toNat * (chars.map width).sum
        ≤ (file.drop h.data_start_offset).length) :
    read_vertex_table_binary file h
      = .ok (specTable h.vertex_properties chars
          (if h.format = "binary_little_endian".toList then Endian.little
            else Endian.big)
          (file.drop h.data_start_offset) ((chars.map width).sum)
          h.vertex_count.toNat) := by
  unfold read_vertex_table_binary
  rw [if_neg (by
    rcases hfmt with hf | hf <;> simp [hf])]
  simp only [hs]
  rw [if_neg (by
    rintro ⟨h1, _⟩
    omega)]
  have hinit : initArrays h.vertex_properties h.vertex_count.toNat
      = (dedupFirst (h.vertex_properties.map Prod.snd)).map
          (fun x => (x, List.replicate h.vertex_count.toNat 0)) :=
    foldSetPairs_nil (fun _ => List.replicate h.vertex_count.toNat 0)
      h.vertex_properties
  rw [hinit]
  rw [readRecords_spec h.vertex_properties chars _ _ h.vertex_count
    (le_of_eq (structFor_length h.vertex_properties chars hs).symm)
    h.vertex_count.toNat 0 _ _ _
    (dedupFirst_nodup _)
    (fun nm hnm => (mem_dedupFirst _ nm).mpr hnm)
    havail]
  congr 1
  unfold specTable
  apply List.map_congr_left
  intro x hx
  cases hLI : lastIdxOf (h.vertex_properties.map Prod.snd) x with
  | some m =>
    simp only [specCol, hLI]
    rw [setSeq_full _ _ 0 (by simp [recVals])]
    simp [recVals]
  | none =>
    simp only [specCol, hLI]
    simp [List.map_const]

/-! ## Claim C8: duplicate vertex property names -/

/-- Dropping everything before the final `body.length` bytes. -/
theorem drop_to_suffix (pre body : List Nat) :
    (pre ++ body).drop ((pre ++ body).length - body.length) = body := by
  have h1 : (pre ++ body).length - body.length = pre.length := by
    rw [List.length_append]
    omega
  rw [h1, List.drop_left]


/-- Claim C8, amended: a vertex element declaring TWO same-named properties
is not an error anywhere in the pipeline.  The header parses with both
declarations retained, and the reader returns one name-keyed column holding,
for every record, the value decoded by the LAST same-named property (index 1
of each unpacked record) — silent last-write-wins resolution. -/
theorem c8_duplicate_names_last_write_wins (vr t1 t2 nm : PyStr) (n : Int)
    (body : List Nat) (chars : List SChar)
    (hv : goodToken vr = true) (ht1 : goodToken t1 = true)
    (ht2 : goodToken t2 = true) (hnm : goodToken nm = true)
    (hn : 0 ≤ n)
    (hs : structFor [(t1, nm), (t2, nm)] = .ok chars)
    (havail : n.toNat * (chars.map width).sum ≤ body.length) :
    ∃ H, parse_ply_header ("ply".toList.map Char.toNat ++ 10 ::
        (("format ".toList ++ "binary_little_endian".toList ++ ' ' :: vr).map
            Char.toNat ++ 10 ::
          (("element vertex ".toList ++ intToStr n).map Char.toNat ++ 10 ::
            [(t1, nm), (t2, nm)].foldr (fun p acc =>
                ("property ".toList ++ p.1 ++ ' ' :: p.2).map Char.toNat
                  ++ 10 :: acc)
              ("end_header".toList.map Char.toNat ++ 10 :: body)))) = .ok H ∧
      H.vertex_properties = [(t1, nm), (t2, nm)] ∧
      read_vertex_table_binary ("ply".toList.map Char.toNat ++ 10 ::
        (("format ".toList ++ "binary_little_endian".toList ++ ' ' :: vr).map
            Char.toNat ++ 10 ::
          (("element vertex ".toList ++ intToStr n).map Char.toNat ++ 10 ::
            [(t1, nm), (t2, nm)].foldr (fun p acc =>
                ("property ".toList ++ p.1 ++ ' ' :: p.2).map Char.toNat
                  ++ 10 :: acc)
              ("end_header".toList.map Char.toNat ++ 10 :: body)))) H
        = .ok [(nm, (List.range n.toNat).map (fun i =>
            pyFloatToF32 ((unpackRec chars Endian.little
              ((body.drop (i * (chars.map width).sum)).take
                ((chars.map width).sum))).getD 1 (.int 0))))] := by
  have hparse := parse_ply_header_scalars "binary_little_endian".toList vr n
    [(t1, nm), (t2, nm)] body (by decide) hv
    (by
      intro p hp
      rcases List.mem_cons.mp hp with rfl | hp2
      · exact ⟨ht1, hnm⟩
      · rcases List.mem_cons.mp hp2 with rfl | hp3
        · exact ⟨ht2, hnm⟩
        · simp at hp3)
  have hsuffix : ("ply".toList.map Char.toNat ++ 10 ::
      (("format ".toList ++ "binary_little_endian".toList ++ ' ' :: vr).map
          Char.toNat ++ 10 ::
        (("element vertex ".toList ++ intToStr n).map Char.toNat ++ 10 ::
          [(t1, nm), (t2, nm)].foldr (fun p acc =>
              ("property ".toList ++ p.1 ++ ' ' :: p.2).map Char.toNat
                ++ 10 :: acc)
            ("end_header".toList.map Char.toNat ++ 10 :: body))))
      = ("ply".toList.map Char.toNat ++ [10]
          ++ ("format ".toList ++ "binary_little_endian".toList ++ ' ' :: vr).map
              Char.toNat ++ [10]
          ++ ("element vertex ".toList ++ intToStr n).map Char.toNat ++ [10]
          ++ ("property ".toList ++ t1 ++ ' ' :: nm).map Char.toNat ++ [10]
          ++ ("property ".toList ++ t2 ++ ' ' :: nm).map Char.toNat ++ [10]
          ++ "end_header".toList.map Char.toNat ++ [10]) ++ body := by
    simp [List.append_assoc]
  have hoff : ("ply".toList.map Char.toNat ++ 10 ::
      (("format ".toList ++ "binary_little_endian".toList ++ ' ' :: vr).map
          Char.toNat ++ 10 ::
        (("element vertex ".toList ++ intToStr n).map Char.toNat ++ 10 ::
          [(t1, nm), (t2, nm)].foldr (fun p acc =>
              ("property ".toList ++ p.1 ++ ' ' :: p.2).map Char.toNat
                ++ 10 :: acc)
            ("end_header".toList.map Char.toNat ++ 10 :: body)))).length
        - body.length
      = ("ply".toList.map Char.toNat ++ [10]
          ++ ("format ".toList ++ "binary_little_endian".toList ++ ' ' :: vr).map
              Char.toNat ++ [10]
          ++ ("element vertex ".toList ++ intToStr n).map Char.toNat ++ [10]
          ++ ("property ".toList ++ t1 ++ ' ' :: nm).map Char.toNat ++ [10]
          ++ ("property ".toList ++ t2 ++ ' ' :: nm).map Char.toNat ++ [10]
          ++ "end_header".toList.map Char.toNat ++ [10]).length := by
    rw [hsuffix, List.length_append]
    omega
  rw [hoff] at hparse
  have hdrop : ("ply".toList.map Char.toNat ++ 10 ::
      (("format ".toList ++ "binary_little_endian".toList ++ ' ' :: vr).map
          Char.toNat ++ 10 ::
        (("element vertex ".toList ++ intToStr n).map Char.toNat ++ 10 ::
          [(t1, nm), (t2, nm)].foldr (fun p acc =>
              ("property ".toList ++ p.1 ++ ' ' :: p.2).map Char.toNat
                ++ 10 :: acc)
            ("end_header".toList.map Char.toNat ++ 10 :: body)))).drop
        (("ply".toList.map Char.toNat ++ [10]
          ++ ("format ".toList ++ "binary_little_endian".toList ++ ' ' :: vr).map
              Char.toNat ++ [10]
          ++ ("element vertex ".toList ++ intToStr n).map Char.toNat ++ [10]
          ++ ("property ".toList ++ t1 ++ ' ' :: nm).map Char.toNat ++ [10]
          ++ ("property ".toList ++ t2 ++ ' ' :: nm).map Char.toNat ++ [10]
          ++ "end_header".toList.map Char.toNat ++ [10]).length)
      = body := by
    rw [hsuffix, List.drop_left]
  refine ⟨_, hparse, rfl, ?_⟩
  rw [read_vertex_table_binary_ok _ _ chars (Or.inl rfl) hs hn
    (by
      show n.toNat * (chars.map width).sum ≤
        (List.length (List.drop _ _))
      rw [hdrop]
      exact havail)]
  rw [show (PlyHeader.mk "binary_little_endian".toList vr n
      [(t1, nm), (t2, nm)] _ _).data_start_offset
    = ("ply".toList.map Char.toNat ++ [10]
          ++ ("format ".toList ++ "binary_little_endian".toList ++ ' ' :: vr).map
              Char.toNat ++ [10]
          ++ ("element vertex ".toList ++ intToStr n).map Char.toNat ++ [10]
          ++ ("property ".toList ++ t1 ++ ' ' :: nm).map Char.toNat ++ [10]
          ++ ("property ".toList ++ t2 ++ ' ' :: nm).map Char.toNat ++ [10]
          ++ "end_header".toList.map Char.toNat ++ [10]).length from rfl]
  rw [hdrop]
  simp only [specTable, specCol]
  simp [dedupFirst, lastIdxOf]

/-- Counterexample to claim C8 as stated: a file whose vertex element
declares `property float x` twice parses without error (both declarations
kept) and reads without error; the single `x` column holds `2.0f` — the
value packed under the SECOND declaration — not `1.0f`.  No stage of the
pipeline raises on the duplicate name. -/
theorem c8_counterexample :
    parse_ply_header
        ("ply\nformat binary_little_endian 1.0\nelement vertex 1\nproperty float x\nproperty float x\nend_header\n".toList.map
            Char.toNat ++ [0, 0, 128, 63, 0, 0, 0, 64])
      = .ok ⟨"binary_little_endian".toList, "1.0".toList, 1,
          [("float".toList, "x".toList), ("float".toList, "x".toList)],
          ["ply".toList, "format binary_little_endian 1.0".toList,
            "element vertex 1".toList, "property float x".toList,
            "property float x".toList, "end_header".toList], 98⟩ ∧
    read_vertex_table_binary
        ("ply\nformat binary_little_endian 1.0\nelement vertex 1\nproperty float x\nproperty float x\nend_header\n".toList.map
            Char.toNat ++ [0, 0, 128, 63, 0, 0, 0, 64])
        ⟨"binary_little_endian".toList, "1.0".toList, 1,
          [("float".toList, "x".toList), ("float".toList, "x".toList)],
          ["ply".toList, "format binary_little_endian 1.0".toList,
            "element vertex 1".toList, "property float x".toList,
            "property float x".toList, "end_header".toList], 98⟩
      = .ok [("x".toList, [1073741824])] :=
  ⟨rfl, rfl⟩

/-- Witness for C8 (amended): the duplicate-name theorem applied to a
concrete one-record file with two `float x` declarations. -/
theorem c8_witness :
    (goodToken "1.0".toList = true ∧ goodToken "float".toList = true ∧
     goodToken "x".toList = true ∧ (0 : Int) ≤ 1 ∧
     structFor [("float".toList, "x".toList), ("float".toList, "x".toList)]
       = .ok [.fF, .fF] ∧
     (1 : Int).toNat * (([SChar.fF, SChar.fF].map width).sum)
       ≤ ([0, 0, 128, 63, 0, 0, 0, 64] : List Nat).length) ∧
    ∃ H, parse_ply_header ("ply".toList.map Char.toNat ++ 10 ::
        (("format ".toList ++ "binary_little_endian".toList ++ ' ' :: "1.0".toList).map
            Char.toNat ++ 10 ::
          (("element vertex ".toList ++ intToStr 1).map Char.toNat ++ 10 ::
            [("float".toList, "x".toList), ("float".toList, "x".toList)].foldr
              (fun p acc =>
                ("property ".toList ++ p.1 ++ ' ' :: p.2).map Char.toNat
                  ++ 10 :: acc)
              ("end_header".toList.map Char.toNat ++ 10 ::
                [0, 0, 128, 63, 0, 0, 0, 64])))) = .ok H ∧
      H.vertex_properties
        = [("float".toList, "x".toList), ("float".toList, "x".toList)] ∧
      read_vertex_table_binary ("ply".toList.map Char.toNat ++ 10 ::
        (("format ".toList ++ "binary_little_endian".toList ++ ' ' :: "1.0".toList).map
            Char.toNat ++ 10 ::
          (("element vertex ".toList ++ intToStr 1).map Char.toNat ++ 10 ::
            [("float".toList, "x".toList), ("float".toList, "x".toList)].foldr
              (fun p acc =>
                ("property ".toList ++ p.1 ++ ' ' :: p.2).map Char.toNat
                  ++ 10 :: acc)
              ("end_header".toList.map Char.toNat ++ 10 ::
                [0, 0, 128, 63, 0, 0, 0, 64])))) H
        = .ok [("x".toList, (List.range (1 : Int).toNat).map (fun i =>
            pyFloatToF32 ((unpackRec [SChar.fF, SChar.fF] Endian.little
              ((([0, 0, 128, 63, 0, 0, 0, 64] : List Nat).drop
                  (i * (([SChar.fF, SChar.fF].map width).sum))).take
                (([SChar.fF, SChar.fF].map width).sum))).getD 1 (.int 0))))] :=
  ⟨⟨by decide, by decide, by decide, by decide, rfl, by decide⟩,
    c8_duplicate_names_last_write_wins "1.0".toList "float".toList
      "float".toList "x".toList 1 [0, 0, 128, 63, 0, 0, 0, 64]
      [SChar.fF, SChar.fF] (by decide) (by decide) (by decide) (by decide)
      (by decide) rfl (by decide)⟩

/-! ## Round-trip of the float encodings -/

theorem leNat_leBytes : ∀ (w v : Nat), v < 256 ^ w → leNat (leBytes w v) = v := by
  intro w
  induction w with
  | zero =>
    intro v hv
    simp [leBytes, leNat]
    omega
  | succ w ih =>
    intro v hv
    have hd : v / 256 < 256 ^ w := by
      rw [Nat.div_lt_iff_lt_mul (by norm_num)]
      calc v < 256 ^ (w + 1) := hv
      _ = 256 ^ w * 256 := by rw [Nat.pow_succ]
    simp only [leBytes, leNat, ih (v / 256) hd]
    omega

theorem plog2F_spec : ∀ (fuel n : Nat), n ≤ fuel → 1 ≤ n →
    2 ^ plog2F fuel n ≤ n ∧ n < 2 ^ (plog2F fuel n + 1) := by
  intro fuel
  induction fuel with
  | zero =>
    intro n hn h1
    omega
  | succ fuel ih =>
    intro n hn h1
    by_cases h2 : 2 ≤ n
    · have hrec := ih (n / 2) (by omega) (by omega)
      simp only [plog2F, if_pos h2]
      obtain ⟨hl, hr⟩ := hrec
      constructor
      · rw [Nat.pow_succ]
        calc 2 ^ plog2F fuel (n / 2) * 2 ≤ n / 2 * 2 := by omega
        _ ≤ n := by omega
      · rw [Nat.pow_succ]
        omega
    · simp only [plog2F, if_neg h2]
      omega

theorem plog2_spec (n : Nat) (h1 : 1 ≤ n) :
    2 ^ plog2 n ≤ n ∧ n < 2 ^ (plog2 n + 1) :=
  plog2F_spec n n le_rfl h1

theorem rne_mul (a b : Nat) (hb : 1 ≤ b) : rne (a * b) b = a := by
  simp only [rne, Nat.mul_div_cancel a hb, Nat.mul_mod_left]
  rw [if_neg]
  simp only [Bool.or_eq_true, Bool.and_eq_true, decide_eq_true_eq, beq_iff_eq]
  rintro (h | ⟨h, _⟩) <;> omega

theorem rne_zero (b : Nat) (hb : 1 ≤ b) : rne 0 b = 0 := by
  have h5 := rne_mul 0 b hb
  rwa [Nat.zero_mul] at h5

/-- Narrowing the exact binary64 widening of a binary32 pattern returns the
original pattern, for every 32-bit pattern (normals, subnormals, zeros,
infinities and NaN payloads alike). -/
theorem narrowF64toF32_widenF32toF64 (v : Nat) (hv : v < 2 ^ 32) :
    narrowF64toF32 (widenF32toF64 v) = v := by
  obtain ⟨s, e, m, hs, he, hm, rfl⟩ :
      ∃ s e m, s < 2 ∧ e < 256 ∧ m < 2 ^ 23 ∧ v = s * 2 ^ 31 + e * 2 ^ 23 + m :=
    ⟨v / 2 ^ 31 % 2, v / 2 ^ 23 % 256, v % 2 ^ 23,
      by omega, by omega, by omega, by omega⟩
  have hps : (s * 2 ^ 31 + e * 2 ^ 23 + m) / 2 ^ 31 % 2 = s := by omega
  have hpe : (s * 2 ^ 31 + e * 2 ^ 23 + m) / 2 ^ 23 % 256 = e := by omega
  have hpm : (s * 2 ^ 31 + e * 2 ^ 23 + m) % 2 ^ 23 = m := by omega
  by_cases he255 : e = 255
  · subst he255
    have hW : widenF32toF64 (s * 2 ^ 31 + 255 * 2 ^ 23 + m)
        = s * 2 ^ 63 + 2047 * 2 ^ 52 + m * 2 ^ 29 := by
      simp only [widenF32toF64, hps, hpe, hpm, if_true, if_false]
    have h1 : (s * 2 ^ 63 + 2047 * 2 ^ 52 + m * 2 ^ 29) / 2 ^ 63 % 2 = s := by
      omega
    have h2 : (s * 2 ^ 63 + 2047 * 2 ^ 52 + m * 2 ^ 29) / 2 ^ 52 % 2048
        = 2047 := by omega
    have h3 : (s * 2 ^ 63 + 2047 * 2 ^ 52 + m * 2 ^ 29) % 2 ^ 52
        = m * 2 ^ 29 := by omega
    rw [hW]
    simp only [narrowF64toF32, h1, h2, h3, if_true, if_false]
    by_cases hm0 : m = 0
    · subst hm0
      rw [if_pos (by omega)]
    · rw [if_neg (by omega), if_neg (by omega)]
      omega
  · by_cases he0 : e = 0
    · subst he0
      by_cases hm0 : m = 0
      · subst hm0
        have hW : widenF32toF64 (s * 2 ^ 31 + 0 * 2 ^ 23 + 0) = s * 2 ^ 63 := by
          simp only [widenF32toF64, hps, hpe, hpm, if_true, if_false]
          rw [if_neg (by omega)]
        have h1 : (s * 2 ^ 63) / 2 ^ 63 % 2 = s := by omega
        have h2 : (s * 2 ^ 63) / 2 ^ 52 % 2048 = 0 := by omega
        have h3 : (s * 2 ^ 63) % 2 ^ 52 = 0 := by omega
        rw [hW]
        simp only [narrowF64toF32, h1, h2, h3, if_true, if_false]
        rw [if_neg (by omega), if_neg (by omega), if_neg (by omega)]
        have h6 : (926 - max (0 : Nat) 1) = 925 := by simp
        rw [h6, rne_zero (2 ^ 925) (Nat.two_pow_pos 925)]
        omega
      · obtain ⟨hL1, hL2⟩ := plog2_spec m (by omega)
        have hL22 : plog2 m ≤ 22 := by
          by_contra hc
          push_neg at hc
          have h7 : 2 ^ 23 ≤ 2 ^ plog2 m :=
            Nat.pow_le_pow_right (by norm_num) (by omega)
          omega
        have hAB : (m - 2 ^ plog2 m) * 2 ^ (52 - plog2 m) < 2 ^ 52 := by
          have h5 : m - 2 ^ plog2 m < 2 ^ plog2 m := by omega
          calc (m - 2 ^ plog2 m) * 2 ^ (52 - plog2 m)
              < 2 ^ plog2 m * 2 ^ (52 - plog2 m) :=
                (Nat.mul_lt_mul_right (Nat.two_pow_pos _)).mpr h5
          _ = 2 ^ 52 := by
              rw [← Nat.pow_add]
              congr 1
              omega
        have hW : widenF32toF64 (s * 2 ^ 31 + 0 * 2 ^ 23 + m)
            = s * 2 ^ 63 + (plog2 m + 874) * 2 ^ 52
              + (m - 2 ^ plog2 m) * 2 ^ (52 - plog2 m) := by
          simp only [widenF32toF64, hps, hpe, hpm, if_true, if_false]
          rw [if_neg hm0, if_neg (by omega)]
        have h1 : (s * 2 ^ 63 + (plog2 m + 874) * 2 ^ 52
              + (m - 2 ^ plog2 m) * 2 ^ (52 - plog2 m)) / 2 ^ 63 % 2 = s := by
          omega
        have h2 : (s * 2 ^ 63 + (plog2 m + 874) * 2 ^ 52
              + (m - 2 ^ plog2 m) * 2 ^ (52 - plog2 m)) / 2 ^ 52 % 2048
            = plog2 m + 874 := by omega
        have h3 : (s * 2 ^ 63 + (plog2 m + 874) * 2 ^ 52
              + (m - 2 ^ plog2 m) * 2 ^ (52 - plog2 m)) % 2 ^ 52
            = (m - 2 ^ plog2 m) * 2 ^ (52 - plog2 m) := by omega
        rw [hW]
        simp only [narrowF64toF32, h1, h2, h3, if_true, if_false]
        rw [if_neg (by omega), if_neg (by omega), if_neg (by omega),
          if_neg (by omega)]
        have hsh : 926 - max (plog2 m + 874) 1 = 52 - plog2 m := by
          rw [Nat.max_eq_left (by omega)]
          omega
        rw [hsh]
        have hS : 2 ^ 52 + (m - 2 ^ plog2 m) * 2 ^ (52 - plog2 m)
            = m * 2 ^ (52 - plog2 m) := by
          have h9 : plog2 m + (52 - plog2 m) = 52 := by omega
          have hpow : (2 : Nat) ^ 52 = 2 ^ plog2 m * 2 ^ (52 - plog2 m) := by
            rw [← Nat.pow_add, h9]
          have h10 : 2 ^ plog2 m + (m - 2 ^ plog2 m) = m := by omega
          have hsplit : m * 2 ^ (52 - plog2 m)
              = (2 ^ plog2 m + (m - 2 ^ plog2 m)) * 2 ^ (52 - plog2 m) := by
            rw [h10]
          rw [hsplit, Nat.add_mul, hpow]
        rw [hS, rne_mul m _ (Nat.two_pow_pos _)]
        omega
    · have hW : widenF32toF64 (s * 2 ^ 31 + e * 2 ^ 23 + m)
          = s * 2 ^ 63 + (e + 896) * 2 ^ 52 + m * 2 ^ 29 := by
        simp only [widenF32toF64, hps, hpe, hpm, if_true, if_false]
        rw [if_neg he255, if_neg he0]
      have h1 : (s * 2 ^ 63 + (e + 896) * 2 ^ 52 + m * 2 ^ 29) / 2 ^ 63 % 2
          = s := by omega
      have h2 : (s * 2 ^ 63 + (e + 896) * 2 ^ 52 + m * 2 ^ 29) / 2 ^ 52 % 2048
          = e + 896 := by omega
      have h3 : (s * 2 ^ 63 + (e + 896) * 2 ^ 52 + m * 2 ^ 29) % 2 ^ 52
          = m * 2 ^ 29 := by omega
      rw [hW]
      simp only [narrowF64toF32, h1, h2, h3, if_true, if_false]
      rw [if_neg (by omega), if_neg (by omega), if_pos (by omega)]
      have hq : 2 ^ 52 + m * 2 ^ 29 = (2 ^ 23 + m) * 2 ^ 29 := by omega
      rw [hq, rne_mul _ _ (Nat.two_pow_pos _)]
      rw [if_neg (by omega)]
      omega

/-! ## Claim C2: the writer-reader round trip -/

/-- Counterexample to claim C2 as stated: the writer accepts a schema whose
property name contains a space.  With vertex count 0 the write SUCCEEDS (no
error, full file emitted), yet re-parsing the produced file fails: the
generated `property float a b` line has four tokens and is rejected as an
invalid property line.  The round trip does not even reach the reader. -/
theorem c2_counterexample :
    (write_ply_binary_vertex_only 0 [("float".toList, "a b".toList)]
        [("a b".toList, [])]).error = none ∧
    parse_ply_header (write_ply_binary_vertex_only 0
        [("float".toList, "a b".toList)] [("a b".toList, [])]).written
      = .error .invalidPropertyLine :=
  ⟨rfl, rfl⟩

/-- `asciiEncode` succeeds on all-ASCII text, yielding the code points. -/
theorem asciiEncode_of_ascii (s : PyStr) (h : ∀ c ∈ s, c.toNat < 128) :
    asciiEncode s = some (s.map Char.toNat) := by
  unfold asciiEncode
  rw [if_pos (List.all_eq_true.mpr (fun c hc => decide_eq_true (h c hc)))]

/-- The writer sanity checks pass when every schema name has a column of
exactly `n` rows. -/
theorem validateCols_none : ∀ (schema : List (PyStr × PyStr)) (cols : Table)
    (n : Int),
    (∀ p ∈ schema, ∃ col, dictGet? cols p.2 = some col ∧ (col.length : Int) = n) →
    validateCols schema cols n = none := by
  intro schema
  induction schema with
  | nil =>
    intro cols n _
    rfl
  | cons p rest ih =>
    intro cols n hcols
    obtain ⟨col, hget, hlen⟩ := hcols p (by simp)
    obtain ⟨t, nm⟩ := p
    simp only [validateCols, hget]
    rw [if_neg (by simp at hlen ⊢; omega)]
    exact ih cols n (fun q hq => hcols q (by simp [hq]))

/-- On float format characters `packRow` never raises and emits `rowBytes`. -/
theorem packRow_fd : ∀ (pcs : List ((PyStr × PyStr) × SChar)) (cols : Table)
    (i : Nat), (∀ q ∈ pcs, q.2 = SChar.fF ∨ q.2 = SChar.dD) →
    packRow pcs cols i = .ok (rowBytes pcs cols i) := by
  intro pcs
  induction pcs with
  | nil =>
    intro cols i _
    rfl
  | cons q pcs ih =>
    intro cols i hfd
    obtain ⟨p, c⟩ := q
    have hc := hfd (p, c) (by simp)
    simp only at hc
    simp only [packRow, rowBytes, List.foldr_cons]
    rcases hc with rfl | rfl
    · simp only [packValue, packCell]
      rw [ih cols i (fun r hr => hfd r (by simp [hr]))]
      rfl
    · simp only [packValue, packCell]
      rw [ih cols i (fun r hr => hfd r (by simp [hr]))]
      rfl

/-- Length of one packed record: the stride of its format characters. -/
theorem rowBytes_length : ∀ (pcs : List ((PyStr × PyStr) × SChar))
    (cols : Table) (i : Nat),
    (∀ q ∈ pcs, q.2 = SChar.fF ∨ q.2 = SChar.dD) →
    (rowBytes pcs cols i).length = (pcs.map (fun q => width q.2)).sum := by
  intro pcs
  induction pcs with
  | nil =>
    intro cols i _
    rfl
  | cons q pcs ih =>
    intro cols i hfd
    have hc := hfd q (by simp)
    simp only [rowBytes, List.foldr_cons, List.map_cons, List.sum_cons,
      List.length_append]
    rw [show (pcs.foldr (fun q acc =>
        packCell q.2 (((dictGet? cols q.1.2).getD []).getD i 0) ++ acc) [])
      = rowBytes pcs cols i from rfl]
    rw [ih cols i (fun r hr => hfd r (by simp [hr]))]
    rcases hc with hq | hq <;> simp [hq, packCell, leBytes_length, width]

/-- The widths of the zipped schema-character pairs are the widths of the
characters. -/
theorem zip_map_width : ∀ (schema : List (PyStr × PyStr)) (chars : List SChar),
    schema.length = chars.length →
    (schema.zip chars).map (fun q => width q.2) = chars.map width := by
  intro schema
  induction schema with
  | nil =>
    intro chars hlen
    cases chars with
    | nil => rfl
    | cons c cs => simp at hlen
  | cons p schema ih =>
    intro chars hlen
    cases chars with
    | nil => simp at hlen
    | cons c cs =>
      have hz : (p :: schema).zip (c :: cs) = (p, c) :: schema.zip cs := rfl
      rw [hz, List.map_cons, List.map_cons, ih cs (by simp at hlen; omega)]

/-- The record-writing loop on float-typed schema entries: it never raises,
emits exactly `k` records of `stride` bytes, and the `j`-th record slice of
its output is the packed row of record `i + j`. -/
theorem writeRows_fd (pcs : List ((PyStr × PyStr) × SChar)) (cols : Table)
    (hfd : ∀ q ∈ pcs, q.2 = SChar.fF ∨ q.2 = SChar.dD) :
    ∀ (k i : Nat),
    (writeRows pcs cols k i).2 = none ∧
    (writeRows pcs cols k i).1.length = k * (pcs.map (fun q => width q.2)).sum ∧
    ∀ j, j < k →
      (((writeRows pcs cols k i).1).drop
          (j * (pcs.map (fun q => width q.2)).sum)).take
        ((pcs.map (fun q => width q.2)).sum) = rowBytes pcs cols (i + j) := by
  intro k
  induction k with
  | zero =>
    intro i
    refine ⟨rfl, by simp [writeRows], ?_⟩
    intro j hj
    omega
  | succ k ih =>
    intro i
    obtain ⟨ih2, ihlen, ihchunk⟩ := ih (i + 1)
    have hrow := packRow_fd pcs cols i hfd
    have hrlen := rowBytes_length pcs cols i hfd
    simp only [writeRows, hrow]
    refine ⟨ih2, ?_, ?_⟩
    · simp only [List.length_append, ihlen, hrlen, Nat.succ_mul]
      omega
    · intro j hj
      cases j with
      | zero =>
        simp only [Nat.zero_mul, List.drop_zero, Nat.add_zero]
        rw [← hrlen, List.take_left]
      | succ j =>
        have hidx : (j + 1) * (pcs.map (fun q => width q.2)).sum
            = (rowBytes pcs cols i).length
              + j * (pcs.map (fun q => width q.2)).sum := by
          rw [hrlen, Nat.succ_mul]
          omega
        rw [hidx, List.drop_append]
        have harg : i + 1 + j = i + (j + 1) := by omega
        rw [← harg]
        exact ihchunk j (by omega)

/-- The widening of a 32-bit pattern fits in 64 bits. -/
theorem widenF32toF64_lt (p : Nat) (hp : p < 2 ^ 32) :
    widenF32toF64 p < 2 ^ 64 := by
  obtain ⟨s, e, m, hs, he, hm, rfl⟩ :
      ∃ s e m, s < 2 ∧ e < 256 ∧ m < 2 ^ 23 ∧ p = s * 2 ^ 31 + e * 2 ^ 23 + m :=
    ⟨p / 2 ^ 31 % 2, p / 2 ^ 23 % 256, p % 2 ^ 23,
      by omega, by omega, by omega, by omega⟩
  have hps : (s * 2 ^ 31 + e * 2 ^ 23 + m) / 2 ^ 31 % 2 = s := by omega
  have hpe : (s * 2 ^ 31 + e * 2 ^ 23 + m) / 2 ^ 23 % 256 = e := by omega
  have hpm : (s * 2 ^ 31 + e * 2 ^ 23 + m) % 2 ^ 23 = m := by omega
  by_cases he255 : e = 255
  · subst he255
    have hW : widenF32toF64 (s * 2 ^ 31 + 255 * 2 ^ 23 + m)
        = s * 2 ^ 63 + 2047 * 2 ^ 52 + m * 2 ^ 29 := by
      simp only [widenF32toF64, hps, hpe, hpm, if_true, if_false]
    rw [hW]
    omega
  · by_cases he0 : e = 0
    · subst he0
      by_cases hm0 : m = 0
      · subst hm0
        have hW : widenF32toF64 (s * 2 ^ 31 + 0 * 2 ^ 23 + 0) = s * 2 ^ 63 := by
          simp only [widenF32toF64, hps, hpe, hpm, if_true, if_false]
          rw [if_neg (by omega)]
        rw [hW]
        omega
      · obtain ⟨hL1, hL2⟩ := plog2_spec m (by omega)
        have hL22 : plog2 m ≤ 22 := by
          by_contra hc
          push_neg at hc
          have h7 : 2 ^ 23 ≤ 2 ^ plog2 m :=
            Nat.pow_le_pow_right (by norm_num) (by omega)
          omega
        have hAB : (m - 2 ^ plog2 m) * 2 ^ (52 - plog2 m) < 2 ^ 52 := by
          have h5 : m - 2 ^ plog2 m < 2 ^ plog2 m := by omega
          calc (m - 2 ^ plog2 m) * 2 ^ (52 - plog2 m)
              < 2 ^ plog2 m * 2 ^ (52 - plog2 m) :=
                (Nat.mul_lt_mul_right (Nat.two_pow_pos _)).mpr h5
          _ = 2 ^ 52 := by
              rw [← Nat.pow_add]
              have h9 : plog2 m + (52 - plog2 m) = 52 := by omega
              rw [h9]
        have hW : widenF32toF64 (s * 2 ^ 31 + 0 * 2 ^ 23 + m)
            = s * 2 ^ 63 + (plog2 m + 874) * 2 ^ 52
              + (m - 2 ^ plog2 m) * 2 ^ (52 - plog2 m) := by
          simp only [widenF32toF64, hps, hpe, hpm, if_true, if_false]
          rw [if_neg hm0, if_neg (by omega)]
        rw [hW]
        omega
    · have hW : widenF32toF64 (s * 2 ^ 31 + e * 2 ^ 23 + m)
          = s * 2 ^ 63 + (e + 896) * 2 ^ 52 + m * 2 ^ 29 := by
        simp only [widenF32toF64, hps, hpe, hpm, if_true, if_false]
        rw [if_neg he255, if_neg he0]
      rw [hW]
      omega

/-- Unpacking a packed row: the `j`-th decoded value, widened to float32,
is exactly the `j`-th schema entry's column cell that was packed (floats are
bit-identical; doubles narrow back to the original pattern). -/
theorem unpack_row : ∀ (schema : List (PyStr × PyStr)) (chars : List SChar)
    (cols : Table) (i : Nat),
    schema.length = chars.length →
    (∀ c ∈ chars, c = SChar.fF ∨ c = SChar.dD) →
    (∀ p ∈ schema, ((dictGet? cols p.2).getD []).getD i 0 < 2 ^ 32) →
    ∀ (j : Nat) (hj : j < schema.length),
      pyFloatToF32 ((unpackRec chars Endian.little
          (rowBytes (schema.zip chars) cols i)).getD j (.int 0))
        = ((dictGet? cols ((schema.get ⟨j, hj⟩).2)).getD []).getD i 0 := by
  intro schema
  induction schema with
  | nil =>
    intro chars cols i hlen hfd hcell j hj
    simp at hj
  | cons p schema ih =>
    intro chars cols i hlen hfd hcell j hj
    cases chars with
    | nil => simp at hlen
    | cons c cs =>
      have hz : (p :: schema).zip (c :: cs) = (p, c) :: schema.zip cs := rfl
      rw [hz]
      have hcfd := hfd c (by simp)
      have hcv : ((dictGet? cols p.2).getD []).getD i 0 < 2 ^ 32 :=
        hcell p (by simp)
      have hrow : rowBytes ((p, c) :: schema.zip cs) cols i
          = packCell c (((dictGet? cols p.2).getD []).getD i 0)
            ++ rowBytes (schema.zip cs) cols i := by
        simp only [rowBytes, List.foldr_cons]
      rw [hrow]
      have hclen : (packCell c (((dictGet? cols p.2).getD []).getD i 0)).length
          = width c := by
        rcases hcfd with rfl | rfl <;>
          simp [packCell, leBytes_length, width]
      have htake : ((packCell c (((dictGet? cols p.2).getD []).getD i 0)
            ++ rowBytes (schema.zip cs) cols i).take (width c))
          = packCell c (((dictGet? cols p.2).getD []).getD i 0) := by
        rw [← hclen]
        exact List.take_left _ _
      have hdrop : ((packCell c (((dictGet? cols p.2).getD []).getD i 0)
            ++ rowBytes (schema.zip cs) cols i).drop (width c))
          = rowBytes (schema.zip cs) cols i := by
        rw [← hclen]
        exact List.drop_left _ _
      simp only [unpackRec, htake, hdrop]
      cases j with
      | zero =>
        simp only [List.getD_cons_zero, List.get]
        rcases hcfd with rfl | rfl
        · simp only [packCell, unpackOne, orientNat, pyFloatToF32]
          rw [leNat_leBytes 4 _ (by norm_num at hcv ⊢; omega)]
        · simp only [packCell, unpackOne, orientNat, pyFloatToF32]
          rw [leNat_leBytes 8 _ (by
            have := widenF32toF64_lt _ hcv
            norm_num at this ⊢
            omega)]
          exact narrowF64toF32_widenF32toF64 _ hcv
      | succ j =>
        simp only [List.getD_cons_succ]
        exact ih cs cols i (by simp at hlen; omega)
          (fun x hx => hfd x (by simp [hx]))
          (fun q hq => hcell q (by simp [hq]))
          j (by simp at hj; omega)

/-- A name that never occurs has no last index. -/
theorem lastIdxOf_none : ∀ (names : List PyStr) (nm : PyStr),
    nm ∉ names → lastIdxOf names nm = none := by
  intro names
  induction names with
  | nil =>
    intro nm _
    rfl
  | cons n0 rest ih =>
    intro nm hmem
    have h1 : nm ∉ rest := fun h => hmem (by simp [h])
    have h2 : n0 ≠ nm := fun h => hmem (by simp [h])
    simp only [lastIdxOf, ih nm h1]
    rw [if_neg h2]

/-- Under distinct names, the last index of the `j`-th name is `j`. -/
theorem lastIdxOf_get_nodup : ∀ (names : List PyStr), names.Nodup →
    ∀ (j : Nat) (hj : j < names.length),
    lastIdxOf names (names.get ⟨j, hj⟩) = some j := by
  intro names
  induction names with
  | nil =>
    intro _ j hj
    simp at hj
  | cons n0 rest ih =>
    intro hnd j hj
    rw [List.nodup_cons] at hnd
    cases j with
    | zero =>
      simp only [List.get, lastIdxOf, lastIdxOf_none rest n0 hnd.1]
      simp
    | succ j =>
      have hjr : j < rest.length := by simp at hj; omega
      have hget : (n0 :: rest).get ⟨j + 1, hj⟩ = rest.get ⟨j, hjr⟩ := rfl
      rw [hget]
      simp only [lastIdxOf, ih hnd.2 j hjr]

/-- Reading a column cell by cell over its index range reproduces it. -/
theorem map_getD_range : ∀ (col : List Nat),
    (List.range col.length).map (fun i => col.getD i 0) = col := by
  intro col
  induction col with
  | nil => rfl
  | cons a col ih =>
    rw [List.length_cons, List.range_succ_eq_map]
    simp only [List.map_cons, List.getD_cons_zero, List.map_map]
    congr 1

/-- Byte codes of the folded property lines. -/
theorem map_foldr_lines : ∀ (schema : List (PyStr × PyStr)) (base : PyStr),
    (schema.foldr (fun p acc =>
        ("property ".toList ++ p.1 ++ ' ' :: p.2) ++ '\n' :: acc) base).map
      Char.toNat
    = schema.foldr (fun p acc =>
        ("property ".toList ++ p.1 ++ ' ' :: p.2).map Char.toNat ++ 10 :: acc)
      (base.map Char.toNat) := by
  intro schema
  induction schema with
  | nil => intro base; rfl
  | cons p schema ih =>
    intro base
    simp only [List.foldr_cons, List.map_append, List.map_cons, ih]
    rfl

/-- Appending bytes after the folded property lines pushes into the base. -/
theorem foldr_lines_append_tail : ∀ (schema : List (PyStr × PyStr))
    (base tail : List Nat),
    (schema.foldr (fun p acc =>
        ("property ".toList ++ p.1 ++ ' ' :: p.2).map Char.toNat ++ 10 :: acc)
      base) ++ tail
    = schema.foldr (fun p acc =>
        ("property ".toList ++ p.1 ++ ' ' :: p.2).map Char.toNat ++ 10 :: acc)
      (base ++ tail) := by
  intro schema
  induction schema with
  | nil => intro base tail; rfl
  | cons p schema ih =>
    intro base tail
    simp only [List.foldr_cons]
    rw [List.append_assoc, List.cons_append, ih]

/-- Every character of the folded property lines is ASCII. -/
theorem foldr_lines_ascii : ∀ (schema : List (PyStr × PyStr)) (base : PyStr),
    (∀ p ∈ schema, goodToken p.1 = true ∧ goodToken p.2 = true) →
    (∀ c ∈ base, c.toNat < 128) →
    ∀ c ∈ schema.foldr (fun p acc =>
        ("property ".toList ++ p.1 ++ ' ' :: p.2) ++ '\n' :: acc) base,
      c.toNat < 128 := by
  intro schema
  induction schema with
  | nil =>
    intro base _ hbase c hc
    exact hbase c hc
  | cons p schema ih =>
    intro base htok hbase c hc
    simp only [List.foldr_cons] at hc
    obtain ⟨h1, hc1⟩ := goodToken_chars p.1 (htok p (by simp)).1
    obtain ⟨h2, hc2⟩ := goodToken_chars p.2 (htok p (by simp)).2
    rcases List.mem_append.mp hc with hcl | hcr
    · rcases List.mem_append.mp hcl with hca | hcb
      · rcases List.mem_append.mp hca with hcx | hcy
        · exact (litProp_chars c hcx).1
        · exact (hc1 c hcy).2.1
      · rcases List.mem_cons.mp hcb with rfl | hcz
        · decide
        · exact (hc2 c hcz).2.1
    · rcases List.mem_cons.mp hcr with rfl | hcw
      · decide
      · exact ih base (fun q hq => htok q (by simp [hq])) hbase c hcw

/-- The header text the writer builds, joined and ASCII-encoded, is exactly
the regenerated header byte stream in line-by-line shape. -/
theorem headerBytes_eq (n : Int) (schema : List (PyStr × PyStr))
    (htok : ∀ p ∈ schema, goodToken p.1 = true ∧ goodToken p.2 = true) :
    asciiEncode (joinNL (headerLinesFor n schema))
      = some ("ply".toList.map Char.toNat ++ 10 ::
          (("format ".toList ++ "binary_little_endian".toList
              ++ ' ' :: "1.0".toList).map Char.toNat ++ 10 ::
            (("element vertex ".toList ++ intToStr n).map Char.toNat ++ 10 ::
              schema.foldr (fun p acc =>
                  ("property ".toList ++ p.1 ++ ' ' :: p.2).map Char.toNat
                    ++ 10 :: acc)
                ("end_header".toList.map Char.toNat ++ 10 :: [])))) := by
  have hjoin : joinNL (headerLinesFor n schema)
      = "ply".toList ++ '\n' ::
        (("format ".toList ++ "binary_little_endian".toList
            ++ ' ' :: "1.0".toList) ++ '\n' ::
          (("element vertex ".toList ++ intToStr n) ++ '\n' ::
            schema.foldr (fun p acc =>
                ("property ".toList ++ p.1 ++ ' ' :: p.2) ++ '\n' :: acc)
              ("end_header".toList ++ '\n' :: []))) := by
    unfold joinNL headerLinesFor
    rw [List.foldr_append, List.foldr_append, List.foldr_map]
    rfl
  have hic := intToStr_chars n
  have hascii : ∀ c ∈ joinNL (headerLinesFor n schema), c.toNat < 128 := by
    rw [hjoin]
    intro c hc
    rcases List.mem_append.mp hc with h1 | h1
    · exact (show ∀ x ∈ "ply".toList, x.toNat < 128 by decide) c h1
    · rcases List.mem_cons.mp h1 with rfl | h2
      · decide
      · rcases List.mem_append.mp h2 with h3 | h3
        · exact (show ∀ x ∈ "format ".toList ++ "binary_little_endian".toList
              ++ ' ' :: "1.0".toList, x.toNat < 128 by decide) c h3
        · rcases List.mem_cons.mp h3 with rfl | h4
          · decide
          · rcases List.mem_append.mp h4 with h5 | h5
            · rcases List.mem_append.mp h5 with h6 | h6
              · exact (litElem_chars c h6).1
              · exact (hic c h6).2.1
            · rcases List.mem_cons.mp h5 with rfl | h6
              · decide
              · refine foldr_lines_ascii schema _ htok ?_ c h6
                intro x hx
                rcases List.mem_append.mp hx with h7 | h7
                · exact (show ∀ y ∈ "end_header".toList, y.toNat < 128
                    by decide) x h7
                · rcases List.mem_cons.mp h7 with rfl | h8
                  · decide
                  · simp at h8
  rw [asciiEncode_of_ascii _ hascii]
  congr 1
  rw [hjoin]
  simp only [List.map_append, List.map_cons, map_foldr_lines]
  rfl

/-- Any column cell of an everywhere-bounded column is bounded (out-of-range
reads return the in-range default). -/
theorem getD_lt_of_all (l : List Nat) (i : Nat) (h : ∀ v ∈ l, v < 2 ^ 32) :
    l.getD i 0 < 2 ^ 32 := by
  rcases Nat.lt_or_ge i l.length with hi | hi
  · rw [List.getD_eq_getElem l 0 hi]
    exact h _ (List.getElem_mem hi)
  · rw [List.getD_eq_default l 0 hi]
    norm_num

/-- `read_vertex_table_binary_ok` with the header fields spelled out. -/
theorem read_vertex_table_binary_ok_mk (file : List Nat) (fmt vr : PyStr)
    (cnt : Int) (props : List (PyStr × PyStr)) (lines : List PyStr) (off : Nat)
    (chars : List SChar)
    (hfmt : fmt = "binary_little_endian".toList ∨
      fmt = "binary_big_endian".toList)
    (hs : structFor props = .ok chars)
    (hn : 0 ≤ cnt)
    (havail : cnt.toNat * (chars.map width).sum ≤ (file.drop off).length) :
    read_vertex_table_binary file ⟨fmt, vr, cnt, props, lines, off⟩
      = .ok (specTable props chars
          (if fmt = "binary_little_endian".toList then Endian.little
            else Endian.big)
          (file.drop off) ((chars.map width).sum) cnt.toNat) :=
  read_vertex_table_binary_ok file ⟨fmt, vr, cnt, props, lines, off⟩ chars
    hfmt hs hn havail

/-- Claim C2, amended: the round trip holds for the files the writer can
actually produce completely — float32/float64 schemas with
whitespace-free tokens, distinct names and per-name columns of the declared
row count.  The write succeeds, the produced header re-parses to the same
count and schema, the reader succeeds, and every schema name reads back to
exactly the column that was written (bit-for-bit, floats identical and
doubles narrowing back losslessly). -/
theorem c2_roundtrip_float_schema (schema : List (PyStr × PyStr)) (cols : Table)
    (n : Int) (chars : List SChar)
    (hn : 0 ≤ n)
    (hs : structFor schema = .ok chars)
    (hfd : ∀ c ∈ chars, c = SChar.fF ∨ c = SChar.dD)
    (htok : ∀ p ∈ schema, goodToken p.1 = true ∧ goodToken p.2 = true)
    (hnd : (schema.map Prod.snd).Nodup)
    (hcols : ∀ p ∈ schema, ∃ col, dictGet? cols p.2 = some col ∧
        (col.length : Int) = n ∧ ∀ v ∈ col, v < 2 ^ 32) :
    (write_ply_binary_vertex_only n schema cols).error = none ∧
    ∃ H table,
      parse_ply_header (write_ply_binary_vertex_only n schema cols).written
        = .ok H ∧
      H.vertex_count = n ∧ H.vertex_properties = schema ∧
      read_vertex_table_binary
        (write_ply_binary_vertex_only n schema cols).written H = .ok table ∧
      ∀ p ∈ schema, dictGet? table p.2 = dictGet? cols p.2 := by
  have hlen := structFor_length schema chars hs
  have hstride : ((schema.zip chars).map (fun q => width q.2)).sum
      = (chars.map width).sum := by
    rw [zip_map_width schema chars hlen.symm]
  have hzipfd : ∀ q ∈ schema.zip chars, q.2 = SChar.fF ∨ q.2 = SChar.dD :=
    fun q hq => hfd q.2 (List.of_mem_zip hq).2
  obtain ⟨hwerr, hwlen, hwchunk⟩ :=
    writeRows_fd (schema.zip chars) cols hzipfd n.toNat 0
  have hval := validateCols_none schema cols n (fun p hp => by
    obtain ⟨col, h1, h2, _⟩ := hcols p hp
    exact ⟨col, h1, h2⟩)
  have hhb := headerBytes_eq n schema htok
  have hwrite : write_ply_binary_vertex_only n schema cols
      = ⟨true,
          ("ply".toList.map Char.toNat ++ 10 ::
            (("format ".toList ++ "binary_little_endian".toList
                ++ ' ' :: "1.0".toList).map Char.toNat ++ 10 ::
              (("element vertex ".toList ++ intToStr n).map Char.toNat ++ 10 ::
                schema.foldr (fun p acc =>
                    ("property ".toList ++ p.1 ++ ' ' :: p.2).map Char.toNat
                      ++ 10 :: acc)
                  ("end_header".toList.map Char.toNat ++ 10 :: []))))
            ++ (writeRows (schema.zip chars) cols n.toNat 0).1,
          (writeRows (schema.zip chars) cols n.toNat 0).2⟩ := by
    unfold write_ply_binary_vertex_only
    simp only [hs, hval, hhb]
  have hfile : ("ply".toList.map Char.toNat ++ 10 ::
        (("format ".toList ++ "binary_little_endian".toList
            ++ ' ' :: "1.0".toList).map Char.toNat ++ 10 ::
          (("element vertex ".toList ++ intToStr n).map Char.toNat ++ 10 ::
            schema.foldr (fun p acc =>
                ("property ".toList ++ p.1 ++ ' ' :: p.2).map Char.toNat
                  ++ 10 :: acc)
              ("end_header".toList.map Char.toNat ++ 10 :: []))))
        ++ (writeRows (schema.zip chars) cols n.toNat 0).1
      = "ply".toList.map Char.toNat ++ 10 ::
        (("format ".toList ++ "binary_little_endian".toList
            ++ ' ' :: "1.0".toList).map Char.toNat ++ 10 ::
          (("element vertex ".toList ++ intToStr n).map Char.toNat ++ 10 ::
            schema.foldr (fun p acc =>
                ("property ".toList ++ p.1 ++ ' ' :: p.2).map Char.toNat
                  ++ 10 :: acc)
              ("end_header".toList.map Char.toNat ++ 10 ::
                (writeRows (schema.zip chars) cols n.toNat 0).1))) := by
    rw [List.append_assoc ("ply".toList.map Char.toNat), List.cons_append]
    rw [List.append_assoc (("format ".toList ++ "binary_little_endian".toList
      ++ ' ' :: "1.0".toList).map Char.toNat), List.cons_append]
    rw [List.append_assoc (("element vertex ".toList ++ intToStr n).map
      Char.toNat), List.cons_append]
    rw [foldr_lines_append_tail]
    rw [List.append_assoc ("end_header".toList.map Char.toNat),
      List.cons_append, List.nil_append]
  have hwritten : (write_ply_binary_vertex_only n schema cols).written
      = "ply".toList.map Char.toNat ++ 10 ::
        (("format ".toList ++ "binary_little_endian".toList
            ++ ' ' :: "1.0".toList).map Char.toNat ++ 10 ::
          (("element vertex ".toList ++ intToStr n).map Char.toNat ++ 10 ::
            schema.foldr (fun p acc =>
                ("property ".toList ++ p.1 ++ ' ' :: p.2).map Char.toNat
                  ++ 10 :: acc)
              ("end_header".toList.map Char.toNat ++ 10 ::
                (writeRows (schema.zip chars) cols n.toNat 0).1))) := by
    rw [hwrite]
    exact hfile
  have hwerr2 : (write_ply_binary_vertex_only n schema cols).error = none := by
    rw [hwrite]
    exact hwerr
  have hparse := parse_ply_header_scalars "binary_little_endian".toList
    "1.0".toList n schema (writeRows (schema.zip chars) cols n.toNat 0).1
    (by decide) (by decide) htok
  have hdrop : ("ply".toList.map Char.toNat ++ 10 ::
        (("format ".toList ++ "binary_little_endian".toList
            ++ ' ' :: "1.0".toList).map Char.toNat ++ 10 ::
          (("element vertex ".toList ++ intToStr n).map Char.toNat ++ 10 ::
            schema.foldr (fun p acc =>
                ("property ".toList ++ p.1 ++ ' ' :: p.2).map Char.toNat
                  ++ 10 :: acc)
              ("end_header".toList.map Char.toNat ++ 10 ::
                (writeRows (schema.zip chars) cols n.toNat 0).1)))).drop
        (("ply".toList.map Char.toNat ++ 10 ::
        (("format ".toList ++ "binary_little_endian".toList
            ++ ' ' :: "1.0".toList).map Char.toNat ++ 10 ::
          (("element vertex ".toList ++ intToStr n).map Char.toNat ++ 10 ::
            schema.foldr (fun p acc =>
                ("property ".toList ++ p.1 ++ ' ' :: p.2).map Char.toNat
                  ++ 10 :: acc)
              ("end_header".toList.map Char.toNat ++ 10 ::
                (writeRows (schema.zip chars) cols n.toNat 0).1)))).length
          - (writeRows (schema.zip chars) cols n.toNat 0).1.length)
      = (writeRows (schema.zip chars) cols n.toNat 0).1 := by
    rw [← hfile]
    exact drop_to_suffix _ _
  have hblen : (writeRows (schema.zip chars) cols n.toNat 0).1.length
      = n.toNat * (chars.map width).sum := by
    rw [hwlen, hstride]
  have hread0 := read_vertex_table_binary_ok_mk
    ("ply".toList.map Char.toNat ++ 10 ::
        (("format ".toList ++ "binary_little_endian".toList
            ++ ' ' :: "1.0".toList).map Char.toNat ++ 10 ::
          (("element vertex ".toList ++ intToStr n).map Char.toNat ++ 10 ::
            schema.foldr (fun p acc =>
                ("property ".toList ++ p.1 ++ ' ' :: p.2).map Char.toNat
                  ++ 10 :: acc)
              ("end_header".toList.map Char.toNat ++ 10 ::
                (writeRows (schema.zip chars) cols n.toNat 0).1))))
    "binary_little_endian".toList "1.0".toList n schema
    (["ply".toList, "format ".toList ++ "binary_little_endian".toList
        ++ ' ' :: "1.0".toList,
      "element vertex ".toList ++ intToStr n]
     ++ schema.map (fun p => "property ".toList ++ p.1 ++ ' ' :: p.2)
     ++ ["end_header".toList])
    (("ply".toList.map Char.toNat ++ 10 ::
        (("format ".toList ++ "binary_little_endian".toList
            ++ ' ' :: "1.0".toList).map Char.toNat ++ 10 ::
          (("element vertex ".toList ++ intToStr n).map Char.toNat ++ 10 ::
            schema.foldr (fun p acc =>
                ("property ".toList ++ p.1 ++ ' ' :: p.2).map Char.toNat
                  ++ 10 :: acc)
              ("end_header".toList.map Char.toNat ++ 10 ::
                (writeRows (schema.zip chars) cols n.toNat 0).1)))).length
      - (writeRows (schema.zip chars) cols n.toNat 0).1.length)
    chars (Or.inl rfl) hs hn (by rw [hdrop, hblen])
  rw [hdrop, if_pos rfl] at hread0
  refine ⟨hwerr2,
    ⟨"binary_little_endian".toList, "1.0".toList, n, schema,
      ["ply".toList, "format ".toList ++ "binary_little_endian".toList
          ++ ' ' :: "1.0".toList,
        "element vertex ".toList ++ intToStr n]
       ++ schema.map (fun p => "property ".toList ++ p.1 ++ ' ' :: p.2)
       ++ ["end_header".toList],
      ("ply".toList.map Char.toNat ++ 10 ::
        (("format ".toList ++ "binary_little_endian".toList
            ++ ' ' :: "1.0".toList).map Char.toNat ++ 10 ::
          (("element vertex ".toList ++ intToStr n).map Char.toNat ++ 10 ::
            schema.foldr (fun p acc =>
                ("property ".toList ++ p.1 ++ ' ' :: p.2).map Char.toNat
                  ++ 10 :: acc)
              ("end_header".toList.map Char.toNat ++ 10 ::
                (writeRows (schema.zip chars) cols n.toNat 0).1)))).length
        - (writeRows (schema.zip chars) cols n.toNat 0).1.length⟩,
    specTable schema chars Endian.little
      (writeRows (schema.zip chars) cols n.toNat 0).1
      ((chars.map width).sum) n.toNat,
    ?_, rfl, rfl, ?_, ?_⟩
  · rw [hwritten]
    exact hparse
  · rw [hwritten]
    exact hread0
  · intro p hp
    obtain ⟨col, hcget, hclen, hcbound⟩ := hcols p hp
    obtain ⟨⟨j, hj⟩, hgj⟩ := List.mem_iff_get.mp hp
    have hj2 : j < (schema.map Prod.snd).length := by
      rw [List.length_map]
      exact hj
    have hnames : (schema.map Prod.snd).get ⟨j, hj2⟩ = p.2 := by
      rw [List.get_map, hgj]
    have hLI : lastIdxOf (schema.map Prod.snd) p.2 = some j := by
      rw [← hnames]
      exact lastIdxOf_get_nodup _ hnd j hj2
    have hmem2 : p.2 ∈ dedupFirst (schema.map Prod.snd) :=
      (mem_dedupFirst _ _).mpr (List.mem_map_of_mem Prod.snd hp)
    have htl : dictGet? (specTable schema chars Endian.little
          (writeRows (schema.zip chars) cols n.toNat 0).1
          ((chars.map width).sum) n.toNat) p.2
        = some (specCol schema chars Endian.little
            (writeRows (schema.zip chars) cols n.toNat 0).1
            ((chars.map width).sum) n.toNat p.2) := by
      unfold specTable
      rw [dictGet?_mapform, if_pos hmem2]
    have hcb : ∀ (i : Nat), ∀ q ∈ schema,
        ((dictGet? cols q.2).getD []).getD i 0 < 2 ^ 32 := by
      intro i q hq
      obtain ⟨cq, hq1, _, hq3⟩ := hcols q hq
      rw [hq1]
      simp only [Option.getD_some]
      exact getD_lt_of_all cq i hq3
    have hcell : ∀ i, i < n.toNat →
        pyFloatToF32 ((unpackRec chars Endian.little
            (((writeRows (schema.zip chars) cols n.toNat 0).1.drop
                (i * (chars.map width).sum)).take
              ((chars.map width).sum))).getD j (.int 0))
          = col.getD i 0 := by
      intro i hi
      have hch : ((writeRows (schema.zip chars) cols n.toNat 0).1.drop
            (i * (chars.map width).sum)).take ((chars.map width).sum)
          = rowBytes (schema.zip chars) cols i := by
        rw [← hstride]
        have h8 := hwchunk i hi
        rw [Nat.zero_add] at h8
        exact h8
      rw [hch]
      have h9 := unpack_row schema chars cols i hlen.symm hfd (hcb i) j hj
      rw [hgj, hcget] at h9
      simpa using h9
    have hlen2 : col.length = n.toNat := by omega
    have hspec : specCol schema chars Endian.little
          (writeRows (schema.zip chars) cols n.toNat 0).1
          ((chars.map width).sum) n.toNat p.2 = col := by
      unfold specCol
      simp only [hLI]
      have h10 : ∀ i ∈ List.range n.toNat,
          pyFloatToF32 ((unpackRec chars Endian.little
              (((writeRows (schema.zip chars) cols n.toNat 0).1.drop
                  (i * (chars.map width).sum)).take
                ((chars.map width).sum))).getD j (.int 0))
            = col.getD i 0 := by
        intro i hi
        exact hcell i (List.mem_range.mp hi)
      rw [List.map_congr_left h10, ← hlen2, map_getD_range]
    rw [htl, hspec, hcget]

/-- Witness for C2 (amended): a one-record `float x` / `double y` schema with
in-range columns round-trips through write, parse and read. -/
theorem c2_witness :
    ((0 : Int) ≤ 1 ∧
     structFor [("float".toList, "x".toList), ("double".toList, "y".toList)]
       = .ok [SChar.fF, SChar.dD] ∧
     (∀ c ∈ [SChar.fF, SChar.dD], c = SChar.fF ∨ c = SChar.dD) ∧
     (∀ p ∈ [("float".toList, "x".toList), ("double".toList, "y".toList)],
       goodToken p.1 = true ∧ goodToken p.2 = true) ∧
     ([("float".toList, "x".toList), ("double".toList, "y".toList)].map
       Prod.snd).Nodup ∧
     (∀ p ∈ [("float".toList, "x".toList), ("double".toList, "y".toList)],
       ∃ col,
         dictGet? [("x".toList, [1065353216]), ("y".toList, [1073741824])] p.2
           = some col ∧ (col.length : Int) = 1 ∧ ∀ v ∈ col, v < 2 ^ 32)) ∧
    ((write_ply_binary_vertex_only 1
        [("float".toList, "x".toList), ("double".toList, "y".toList)]
        [("x".toList, [1065353216]), ("y".toList, [1073741824])]).error
      = none ∧
     ∃ H table,
       parse_ply_header (write_ply_binary_vertex_only 1
          [("float".toList, "x".toList), ("double".toList, "y".toList)]
          [("x".toList, [1065353216]), ("y".toList, [1073741824])]).written
         = .ok H ∧
       H.vertex_count = 1 ∧
       H.vertex_properties
         = [("float".toList, "x".toList), ("double".toList, "y".toList)] ∧
       read_vertex_table_binary (write_ply_binary_vertex_only 1
          [("float".toList, "x".toList), ("double".toList, "y".toList)]
          [("x".toList, [1065353216]), ("y".toList, [1073741824])]).written H
         = .ok table ∧
       ∀ p ∈ [("float".toList, "x".toList), ("double".toList, "y".toList)],
         dictGet? table p.2
           = dictGet? [("x".toList, [1065353216]), ("y".toList, [1073741824])]
               p.2) := by
  have hcols : ∀ p ∈ [("float".toList, "x".toList),
      ("double".toList, "y".toList)],
      ∃ col,
        dictGet? [("x".toList, [1065353216]), ("y".toList, [1073741824])] p.2
          = some col ∧ (col.length : Int) = 1 ∧ ∀ v ∈ col, v < 2 ^ 32 := by
    intro p hp
    rcases List.mem_cons.mp hp with rfl | hp2
    · exact ⟨[1065353216], rfl, by decide, by decide⟩
    rcases List.mem_cons.mp hp2 with rfl | hp3
    · exact ⟨[1073741824], rfl, by decide, by decide⟩
    · simp at hp3
  exact ⟨⟨by decide, rfl, by decide, by decide, by decide, hcols⟩,
    c2_roundtrip_float_schema
      [("float".toList, "x".toList), ("double".toList, "y".toList)]
      [("x".toList, [1065353216]), ("y".toList, [1073741824])]
      1 [SChar.fF, SChar.dD] (by decide) rfl (by decide) (by decide)
      (by decide) hcols⟩
